import Mathlib

/-!
Verification development for the lekker-chat replay engine (src/content.js).

The replay engine synchronizes a timestamp-sorted chat log with a video
timeline.  We give a shallow embedding of the engine's mutable module-level
state and of the functions that the claims concern:

  * showMessage            (content.js lines 167-183)
  * showPreviousMessages   (content.js lines 570-592)
  * showMissedMessages     (content.js lines 599-615)
  * showCurrentSecondMessages (content.js lines 621-642)
  * the setInterval callback of onVideoReady (lines 659-682), here videoTick
  * cleanup                (content.js lines 1137-1189)
  * refreshChatWithNewOffset (content.js lines 962-977)
  * handleMessage, case updateSettings (lines 822-834), here updateSettings
  * calculateSmartDefaultOffset (lines 726-758) and getTimeOffset (763-770)

Numbers (timestamps, offsets, media positions, timer due times) are modelled
as rationals; JS setTimeout scheduling is modelled by an explicit pending
list of (absolute due time in ms, comment) pairs, fired in due order with
FIFO tie-breaking, which is how the HTML timer queue orders them.
A possibly-throwing Sink (createChatMessage/appendChild inside showMessage)
is modelled by a parameter fails : Comment -> Bool; a function whose JS body
has a try/catch around its loop discards the propagated-exception flag.
-/

/-- One chat event: an identity and its raw timestamp
(field name as in the chat JSON consumed by content.js). -/
structure Comment where
  cid : Nat
  content_offset_seconds : ℚ
deriving DecidableEq, Repr

/-- Ghost trace of the observable actions a call performs, used to state
ordering properties (which reveals happen before the lastSecond update,
what a deferred timer does). -/
inductive TickEv where
  | reveal (c : Comment) : TickEv
  | setLast (sec : Int) : TickEv
  | sched (c : Comment) : TickEv
deriving DecidableEq, Repr

/-- The module-level mutable state of content.js that the replay engine
reads and writes: chatData (null or its comments array), config.timeOffset,
the shownMessages Set (insertion-ordered, as a JS Set is), the messageList
DOM feed (none once removed/not injected), lastSecond, the pending
setTimeout queue of staggered reveals, whether the videoInterval sampling
loop is installed, whether the video element is present, and isActive.
evLog is ghost instrumentation only. -/
structure EngineState where
  chatData : Option (List Comment)
  timeOffset : ℚ
  shownMessages : List Comment
  messageList : Option (List Comment)
  lastSecond : Int
  pending : List (ℚ × Comment)
  videoInterval : Bool
  videoPresent : Bool
  isActive : Bool
  evLog : List TickEv
deriving DecidableEq, Repr

/-- A Sink that never throws. -/
def noFail : Comment → Bool := fun _ => false

/-- JS Set.add on the insertion-ordered shownMessages set. -/
def addShown (l : List Comment) (c : Comment) : List Comment :=
  if c ∈ l then l else l ++ [c]

/-- getTimeOffset (content.js 763-770): config.timeOffset when the config is
present (initConfig always fills it in), modelled as the state field. -/
def getTimeOffset (s : EngineState) : ℚ :=
  s.timeOffset

/-- showMessage (content.js 167-183): guard on messageList, add the comment
to shownMessages, then render and append it to the feed.  The render/append
(the Sink call) may throw, AFTER the set insertion; the Bool result is the
propagated-exception flag.  The ghost reveal event is logged at the point
the Sink call is made. -/
def showMessage (fails : Comment → Bool) (s : EngineState) (c : Comment) :
    EngineState × Bool :=
  match s.messageList with
  | none => (s, false)
  | some feed =>
      let s1 := { s with shownMessages := addShown s.shownMessages c,
                         evLog := s.evLog ++ [TickEv.reveal c] }
      if fails c then (s1, true)
      else ({ s1 with messageList := some (feed ++ [c]) }, false)

/-- A forEach of showMessage over a batch: stops at the first thrown
exception and propagates the flag (JS forEach aborts on an exception). -/
def revealList (fails : Comment → Bool) :
    EngineState → List Comment → EngineState × Bool
  | s, [] => (s, false)
  | s, c :: rest =>
      let r := showMessage fails s c
      if r.2 then (r.1, true) else revealList fails r.1 rest

/-- The seconds visited by `for (let sec = from; sec <= to; sec++)`. -/
def secondsRange (lo hi : Int) : List Int :=
  (List.range (hi + 1 - lo).toNat).map (fun (k : Nat) => lo + (k : Int))

/-- The selection filter shared, textually identically, by
showMissedMessages (content.js 607-609) and showCurrentSecondMessages
(content.js 627-629): the comments whose adjusted timestamp strictly
equals the given second and that are not in shownMessages. -/
def commentsAtSecond (comments : List Comment) (s : EngineState)
    (sec : Int) : List Comment :=
  comments.filter (fun c =>
    decide (c.content_offset_seconds + getTimeOffset s = (sec : ℚ)) &&
    decide (c ∉ s.shownMessages))

/-- The loop body of showMissedMessages (content.js 605-611): for each
second, filter the not-yet-shown comments whose adjusted timestamp equals
that second (strict equality) and reveal them; an exception aborts the
whole loop and propagates to the enclosing try/catch. -/
def missedGo (fails : Comment → Bool) (comments : List Comment) :
    EngineState → List Int → EngineState × Bool
  | s, [] => (s, false)
  | s, sec :: rest =>
      let r := revealList fails s (commentsAtSecond comments s sec)
      if r.2 then (r.1, true) else missedGo fails comments r.1 rest

/-- showMissedMessages (content.js 599-615): guard on chatData, run the
seconds loop, and catch (log and swallow) any exception at function level. -/
def showMissedMessages (fails : Comment → Bool) (s : EngineState)
    (lo hi : Int) : EngineState :=
  match s.chatData with
  | none => s
  | some comments => (missedGo fails comments s (secondsRange lo hi)).1

/-- The loop body of showPreviousMessages (content.js 581-587): visit the
given indices of the comments array, revealing each comment present and not
already shown; an exception propagates to the enclosing try/catch. -/
def prevGo (fails : Comment → Bool) (comments : List Comment) :
    EngineState → List Nat → EngineState × Bool
  | s, [] => (s, false)
  | s, i :: rest =>
      match comments[i]? with
      | none => prevGo fails comments s rest
      | some c =>
          if c ∈ s.shownMessages then prevGo fails comments s rest
          else
            let r := showMessage fails s c
            if r.2 then (r.1, true) else prevGo fails comments r.1 rest

/-- showPreviousMessages (content.js 570-592): find, in a REVERSED copy of
the comments array, the index of the first comment whose adjusted timestamp
is strictly below `second`; then (as the source does) use that index
against the UNREVERSED array, looping from Math.max(0, firstIdx - 25)
(natural subtraction) up to firstIdx - 1.  Exceptions are caught at
function level. -/
def showPreviousMessages (fails : Comment → Bool) (s : EngineState)
    (second : Int) : EngineState :=
  match s.chatData with
  | none => s
  | some comments =>
      match comments.reverse.findIdx? (fun c =>
          decide (c.content_offset_seconds + getTimeOffset s < (second : ℚ))) with
      | none => s
      | some firstIdx =>
          let startIdx := firstIdx - 25
          (prevGo fails comments s
            ((List.range (firstIdx - startIdx)).map (fun k => startIdx + k))).1

/-- showCurrentSecondMessages (content.js 621-642): filter the
not-yet-shown comments whose adjusted timestamp equals the current second
(strict equality) and schedule the idx-th of the n selected for
setTimeout((idx * 1000) / n) milliseconds after `now`.  Nothing is revealed
synchronously; ghost sched events are logged for each scheduled comment. -/
def showCurrentSecondMessages (s : EngineState) (currentSecond : Int)
    (now : ℚ) : EngineState :=
  match s.chatData with
  | none => s
  | some comments =>
      let commentsThisSecond := commentsAtSecond comments s currentSecond
      let count := commentsThisSecond.length
      if 0 < count then
        { s with
          pending := s.pending ++ commentsThisSecond.enum.map
            (fun p => (now + ((p.1 : ℚ) * 1000) / (count : ℚ), p.2)),
          evLog := s.evLog ++ commentsThisSecond.map (fun c => TickEv.sched c) }
      else s

/-- The setInterval callback installed by onVideoReady (content.js 659-682).
When the sampling loop is installed, the video exists and is not paused:
floor the position; on no change do nothing; on a change of more than 15
clear shownMessages and the feed and run showPreviousMessages; on a change
of more than 1 run showMissedMessages over (min+1)..max; then update
lastSecond and run showCurrentSecondMessages.  `now` is the sample time in
ms, used only as the base for setTimeout due times. -/
def videoTick (fails : Comment → Bool) (s : EngineState) (currentTime : ℚ)
    (paused : Bool) (now : ℚ) : EngineState :=
  if !s.videoInterval then s
  else if !s.videoPresent || paused then s
  else
    let currentSecond : Int := Rat.floor currentTime
    if currentSecond = s.lastSecond then s
    else
      let s1 :=
        if 15 < (currentSecond - s.lastSecond).natAbs then
          let sCleared := { s with shownMessages := [],
                                   messageList := s.messageList.map (fun _ => []) }
          showPreviousMessages fails sCleared currentSecond
        else if 1 < (currentSecond - s.lastSecond).natAbs then
          showMissedMessages fails s (min s.lastSecond currentSecond + 1)
            (max s.lastSecond currentSecond)
        else s
      let s2 := { s1 with lastSecond := currentSecond,
                          evLog := s1.evLog ++ [TickEv.setLast currentSecond] }
      showCurrentSecondMessages s2 currentSecond now

/-- A pending setTimeout callback firing: its body is showMessage(comment);
an exception thrown there is uncaught in its own task and affects nothing
else. -/
def fireTimer (fails : Comment → Bool) (s : EngineState) (c : Comment) :
    EngineState :=
  (showMessage fails s c).1

/-- cleanup (content.js 1137-1189): clear shownMessages, remove the injected
message list, stop the sampling interval, reset lastSecond, drop video and
chatData, clear isActive.  The pending setTimeout queue is NOT cancelled,
exactly as in the source. -/
def cleanup (s : EngineState) : EngineState :=
  { s with shownMessages := [],
           messageList := none,
           videoInterval := false,
           lastSecond := -1,
           videoPresent := false,
           isActive := false,
           chatData := none }

/-- refreshChatWithNewOffset (content.js 962-977): guard on video, chatData
and messageList; clear shownMessages and the feed, reset lastSecond to the
sentinel -1, and run showPreviousMessages at the floor of the current video
time (under the offset already stored in the state, i.e. the new one). -/
def refreshChatWithNewOffset (fails : Comment → Bool) (s : EngineState)
    (currentTime : ℚ) : EngineState :=
  if !s.videoPresent then s
  else
    match s.chatData, s.messageList with
    | some _, some _ =>
        let s1 := { s with shownMessages := [], messageList := some [],
                           lastSecond := -1 }
        showPreviousMessages fails s1 (Rat.floor currentTime)
    | _, _ => s

/-- handleMessage, case updateSettings (content.js 822-834): merge the new
offset into config; if it changed and the session is active with a video,
run refreshChatWithNewOffset. -/
def updateSettings (fails : Comment → Bool) (s : EngineState)
    (newOffset : ℚ) (currentTime : ℚ) : EngineState :=
  let oldOffset := s.timeOffset
  let s1 := { s with timeOffset := newOffset }
  if decide (oldOffset ≠ newOffset) && s1.isActive && s1.videoPresent then
    refreshChatWithNewOffset fails s1 currentTime
  else s1

/-- The smallest due time in the pending queue. -/
def dueMin : List (ℚ × Comment) → Option ℚ
  | [] => none
  | (d, _) :: rest =>
      match dueMin rest with
      | none => some d
      | some m => some (min d m)

/-- Remove the first (earliest-scheduled) pending entry with due time d. -/
def removeFirstDue (d : ℚ) : List (ℚ × Comment) →
    Option (Comment × List (ℚ × Comment))
  | [] => none
  | (d', c) :: rest =>
      if d' = d then some (c, rest)
      else
        match removeFirstDue d rest with
        | none => none
        | some (c0, rest0) => some (c0, (d', c) :: rest0)

/-- Pop the next timer the event loop would run no later than `bound`:
the earliest due time, FIFO among equal due times. -/
def popDue (bound : ℚ) (pend : List (ℚ × Comment)) :
    Option (Comment × List (ℚ × Comment)) :=
  match dueMin pend with
  | none => none
  | some m => if m ≤ bound then removeFirstDue m pend else none

/-- Fire every pending timer due no later than `bound`, in event-loop
order; fuelled by the queue length, which only shrinks. -/
def fireDueAux (fails : Comment → Bool) (bound : ℚ) :
    Nat → EngineState → EngineState
  | 0, s => s
  | fuel + 1, s =>
      match popDue bound s.pending with
      | none => s
      | some (c, rest) =>
          fireDueAux fails bound fuel (fireTimer fails { s with pending := rest } c)

/-- Fire every pending timer due no later than `bound`. -/
def fireDue (fails : Comment → Bool) (s : EngineState) (bound : ℚ) :
    EngineState :=
  fireDueAux fails bound s.pending.length s

/-- Fire all remaining pending timers, in event-loop order. -/
def flushAux (fails : Comment → Bool) : Nat → EngineState → EngineState
  | 0, s => s
  | fuel + 1, s =>
      match dueMin s.pending with
      | none => s
      | some m =>
          match removeFirstDue m s.pending with
          | none => s
          | some (c, rest) =>
              flushAux fails fuel (fireTimer fails { s with pending := rest } c)

/-- Fire all remaining pending timers, in event-loop order. -/
def flushTimers (fails : Comment → Bool) (s : EngineState) : EngineState :=
  flushAux fails s.pending.length s

/-- Run the 100 ms sampling loop over a list of samples
(sample time in ms, video.currentTime, video.paused): before each interval
callback runs, every timer due by then has fired. -/
def runSamples (fails : Comment → Bool) :
    EngineState → List (ℚ × ℚ × Bool) → EngineState
  | s, [] => s
  | s, (now, ct, paused) :: rest =>
      runSamples fails (videoTick fails (fireDue fails s now) ct paused now) rest

/-- calculateSmartDefaultOffset (content.js 726-758): from the video
duration and the last chat message timestamp (either possibly unavailable),
compute floor(duration - lastTimestamp) when both are truthy and positive
and the candidate lies within [-3600, 3600]; otherwise the fallback 900. -/
def calculateSmartDefaultOffset (videoDuration : Option ℚ)
    (lastChatTimestamp : Option ℚ) : Int :=
  let fallbackOffset : Int := 900
  match videoDuration, lastChatTimestamp with
  | some d, some t =>
      if d ≠ 0 ∧ t ≠ 0 ∧ 0 < d ∧ 0 < t then
        let calculatedOffset := Rat.floor (d - t)
        if -3600 ≤ calculatedOffset ∧ calculatedOffset ≤ 3600 then
          calculatedOffset
        else fallbackOffset
      else fallbackOffset
  | _, _ => fallbackOffset

/-- The offset resolution contract of the spec, as implemented by
getTimeOffset (content.js 763-770) over initConfig: an explicitly
configured offset wins; otherwise the smart default heuristic. -/
def resolve (explicitOffset : Option Int) (mediaDuration : Option ℚ)
    (lastEventTimestamp : Option ℚ) : Int :=
  match explicitOffset with
  | some o => o
  | none => calculateSmartDefaultOffset mediaDuration lastEventTimestamp

/-- The offset resolution written from the words of claim C8, for
comparison with the source-derived resolve. -/
def resolveSpec (explicitOffset : Option Int) (mediaDuration : Option ℚ)
    (lastEventTimestamp : Option ℚ) : Int :=
  match explicitOffset with
  | some o => o
  | none =>
      match mediaDuration, lastEventTimestamp with
      | some d, some t =>
          if 0 < d ∧ 0 < t ∧ -3600 ≤ Rat.floor (d - t) ∧
              Rat.floor (d - t) ≤ 3600 then
            Rat.floor (d - t)
          else 900
      | _, _ => 900

/-! ### Basic lemmas about the set and the Sink call -/

/-- The state components that none of the reveal helpers touch. -/
def SameCore (s t : EngineState) : Prop :=
  t.chatData = s.chatData ∧ t.timeOffset = s.timeOffset ∧
  t.lastSecond = s.lastSecond ∧ t.pending = s.pending ∧
  t.videoInterval = s.videoInterval ∧ t.videoPresent = s.videoPresent ∧
  t.isActive = s.isActive

/-- Concrete events for the small-jump witness: one per second 10..13. -/
def w1 : Comment := ⟨10, 10⟩

def w2 : Comment := ⟨11, 11⟩

def w3 : Comment := ⟨12, 12⟩

def w4 : Comment := ⟨13, 13⟩

/-- A tracking session at second 10 whose log holds w1..w4 and whose
RevealedSet already holds w2. -/
def sSmall : EngineState :=
  { chatData := some [w1, w2, w3, w4], timeOffset := 0, shownMessages := [w2],
    messageList := some [w2], lastSecond := 10, pending := [],
    videoInterval := true, videoPresent := true, isActive := true, evLog := [] }

/-- A log with a single event whose adjusted timestamp 100 lies strictly
before second 200. -/
def cA : Comment := ⟨0, 100⟩

/-- A tracking session at second 5 over the single-event log. -/
def sLarge : EngineState :=
  { chatData := some [cA], timeOffset := 0, shownMessages := [],
    messageList := some [], lastSecond := 5, pending := [],
    videoInterval := true, videoPresent := true, isActive := true, evLog := [] }

/-- Two events sharing adjusted second 11. -/
def cB1 : Comment := ⟨1, 11⟩

def cB2 : Comment := ⟨2, 11⟩

/-- A tracking session at second 10 over the two-event log with nothing
revealed and nothing pending. -/
def sC2 : EngineState :=
  { chatData := some [cB1, cB2], timeOffset := 0, shownMessages := [],
    messageList := some [], lastSecond := 10, pending := [],
    videoInterval := true, videoPresent := true, isActive := true, evLog := [] }

/-- One event at adjusted second 12. -/
def cD : Comment := ⟨3, 12⟩

/-- A tracking session at second 10 over the one-event log. -/
def sC4 : EngineState :=
  { chatData := some [cD], timeOffset := 0, shownMessages := [],
    messageList := some [], lastSecond := 10, pending := [],
    videoInterval := true, videoPresent := true, isActive := true, evLog := [] }

/-- Two events, one at adjusted second 11 and one at adjusted second 12;
the Sink throws on the first. -/
def cE1 : Comment := ⟨41, 11⟩

def cE2 : Comment := ⟨42, 12⟩

/-- A Sink that throws exactly on cE1. -/
def failsE : Comment → Bool := fun c => c.cid == 41

/-- A tracking session over the two-event log. -/
def sC5 : EngineState :=
  { chatData := some [cE1, cE2], timeOffset := 0, shownMessages := [],
    messageList := some [], lastSecond := 10, pending := [],
    videoInterval := true, videoPresent := true, isActive := true, evLog := [] }

/-- One event whose adjusted timestamp equals the current second 50. -/
def cC : Comment := ⟨5, 50⟩

/-- A tracking session at second 42 with cC revealed and one stale
staggered reveal pending from before the offset change. -/
def sC6 : EngineState :=
  { chatData := some [cC], timeOffset := 0, shownMessages := [cC],
    messageList := some [cC], lastSecond := 42, pending := [(500, cC)],
    videoInterval := true, videoPresent := true, isActive := true, evLog := [] }

/-- Four events sharing adjusted second 11. -/
def cS1 : Comment := ⟨21, 11⟩

def cS2 : Comment := ⟨22, 11⟩

def cS3 : Comment := ⟨23, 11⟩

def cS4 : Comment := ⟨24, 11⟩

/-- A tracking session at second 10 over the four-event log. -/
def sC7 : EngineState :=
  { chatData := some [cS1, cS2, cS3, cS4], timeOffset := 0,
    shownMessages := [], messageList := some [], lastSecond := 10,
    pending := [], videoInterval := true, videoPresent := true,
    isActive := true, evLog := [] }

/-- An event with the fractional adjusted timestamp 1/2, and two integer
neighbours. -/
def cF0 : Comment := ⟨20, 1/2⟩

def cF1 : Comment := ⟨21, 1⟩

def cF2 : Comment := ⟨22, 10⟩

/-- A tracking session over the three-event log with nothing revealed. -/
def sFrac : EngineState :=
  { chatData := some [cF0, cF1, cF2], timeOffset := 0, shownMessages := [],
    messageList := some [], lastSecond := 0, pending := [],
    videoInterval := true, videoPresent := true, isActive := true, evLog := [] }

/-! ### Lemmas and claim theorems -/

theorem addShown_of_not_mem {l : List Comment} {c : Comment} (h : c ∉ l) :
    addShown l c = l ++ [c] := by
  simp [addShown, h]

theorem mem_addShown {l : List Comment} {c x : Comment} :
    x ∈ addShown l c ↔ x ∈ l ∨ x = c := by
  by_cases h : c ∈ l
  · simp only [addShown, if_pos h]
    exact ⟨Or.inl, fun h' => h'.elim id (fun e => e ▸ h)⟩
  · simp [addShown, if_neg h]

theorem sameCore_refl (s : EngineState) : SameCore s s := by
  simp [SameCore]

theorem sameCore_trans {s t u : EngineState} (h1 : SameCore s t)
    (h2 : SameCore t u) : SameCore s u := by
  obtain ⟨a1, a2, a3, a4, a5, a6, a7⟩ := h1
  obtain ⟨b1, b2, b3, b4, b5, b6, b7⟩ := h2
  exact ⟨b1.trans a1, b2.trans a2, b3.trans a3, b4.trans a4,
    b5.trans a5, b6.trans a6, b7.trans a7⟩

theorem showMessage_sameCore (fails : Comment → Bool) (s : EngineState)
    (c : Comment) : SameCore s (showMessage fails s c).1 := by
  unfold showMessage
  cases s.messageList <;> simp [SameCore]
  split <;> simp

theorem revealList_sameCore (fails : Comment → Bool) :
    ∀ (cs : List Comment) (s : EngineState),
      SameCore s (revealList fails s cs).1
  | [], s => sameCore_refl s
  | c :: rest, s => by
      unfold revealList
      rcases h : showMessage fails s c with ⟨s1, b⟩
      have hc : SameCore s s1 := by
        have := showMessage_sameCore fails s c
        rwa [h] at this
      cases b <;> simp
      · exact sameCore_trans hc (revealList_sameCore fails rest s1)
      · exact hc

theorem prevGo_sameCore (fails : Comment → Bool) (comments : List Comment) :
    ∀ (idxs : List Nat) (s : EngineState),
      SameCore s (prevGo fails comments s idxs).1
  | [], s => sameCore_refl s
  | i :: rest, s => by
      unfold prevGo
      cases h : comments[i]? with
      | none => exact prevGo_sameCore fails comments rest s
      | some c =>
          by_cases hm : c ∈ s.shownMessages
          · simp [hm]
            exact prevGo_sameCore fails comments rest s
          · simp [hm]
            rcases hsm : showMessage fails s c with ⟨s1, b⟩
            have hc : SameCore s s1 := by
              have := showMessage_sameCore fails s c
              rwa [hsm] at this
            cases b <;> simp
            · exact sameCore_trans hc (prevGo_sameCore fails comments rest s1)
            · exact hc

theorem missedGo_sameCore (fails : Comment → Bool) (comments : List Comment) :
    ∀ (secs : List Int) (s : EngineState),
      SameCore s (missedGo fails comments s secs).1
  | [], s => sameCore_refl s
  | sec :: rest, s => by
      unfold missedGo
      rcases h : revealList fails s (commentsAtSecond comments s sec) with ⟨s1, b⟩
      have hc : SameCore s s1 := by
        have := revealList_sameCore fails (commentsAtSecond comments s sec) s
        rwa [h] at this
      cases b
      · simpa using sameCore_trans hc (missedGo_sameCore fails comments rest s1)
      · simpa using hc

theorem showMessage_nofail_spec (s : EngineState) (c : Comment)
    (feed : List Comment) (hml : s.messageList = some feed) :
    showMessage noFail s c =
      ({ s with shownMessages := addShown s.shownMessages c,
                messageList := some (feed ++ [c]),
                evLog := s.evLog ++ [TickEv.reveal c] }, false) := by
  simp [showMessage, hml, noFail]

theorem revealList_nofail_spec :
    ∀ (cs : List Comment) (s : EngineState) (feed : List Comment),
      s.messageList = some feed → (∀ c ∈ cs, c ∉ s.shownMessages) →
      cs.Nodup →
      revealList noFail s cs =
        ({ s with shownMessages := s.shownMessages ++ cs,
                  messageList := some (feed ++ cs),
                  evLog := s.evLog ++ cs.map TickEv.reveal }, false)
  | [], s, feed, hml, _, _ => by
      simp [revealList, ← hml]
  | c :: rest, s, feed, hml, hmem, hnd => by
      have hc : c ∉ s.shownMessages := hmem c (by simp)
      have hstep := showMessage_nofail_spec s c feed hml
      rw [revealList, hstep]
      simp only []
      have hrest := revealList_nofail_spec rest
        { s with shownMessages := addShown s.shownMessages c,
                 messageList := some (feed ++ [c]),
                 evLog := s.evLog ++ [TickEv.reveal c] }
        (feed ++ [c]) rfl
        (by
          intro x hx
          rw [mem_addShown]
          rintro (h1 | h2)
          · exact hmem x (by simp [hx]) h1
          · exact (List.nodup_cons.mp hnd).1 (h2 ▸ hx))
        (List.nodup_cons.mp hnd).2
      rw [hrest]
      simp [addShown_of_not_mem hc, List.append_assoc]

theorem mem_commentsAtSecond {comments : List Comment} {s : EngineState}
    {sec : Int} {x : Comment} :
    x ∈ commentsAtSecond comments s sec ↔
      x ∈ comments ∧ x.content_offset_seconds + getTimeOffset s = (sec : ℚ) ∧
        x ∉ s.shownMessages := by
  simp [commentsAtSecond, List.mem_filter, and_assoc]

theorem commentsAtSecond_congr (comments : List Comment) (s s1 : EngineState)
    (sec sec' : Int) (d0 : List Comment)
    (hoff : getTimeOffset s1 = getTimeOffset s)
    (hsh : s1.shownMessages = s.shownMessages ++ d0)
    (hd0 : ∀ x ∈ d0, x.content_offset_seconds + getTimeOffset s = (sec : ℚ))
    (hne : sec' ≠ sec) :
    commentsAtSecond comments s1 sec' = commentsAtSecond comments s sec' := by
  unfold commentsAtSecond
  apply List.filter_congr
  intro x _
  by_cases hx : x.content_offset_seconds + getTimeOffset s = (sec' : ℚ)
  · have hnd0 : x ∉ d0 := by
      intro hmem
      have := hd0 x hmem
      rw [this] at hx
      exact hne (by exact_mod_cast hx.symm)
    have : (x ∈ s1.shownMessages) ↔ (x ∈ s.shownMessages) := by
      rw [hsh]
      simp [hnd0]
    simp [hoff, hx, this]
  · simp [hoff, hx]

theorem missedGo_nofail_spec (comments : List Comment) (hnd : comments.Nodup) :
    ∀ (secs : List Int) (s : EngineState) (feed : List Comment),
      s.messageList = some feed → secs.Nodup →
      missedGo noFail comments s secs =
        ({ s with
            shownMessages := s.shownMessages ++
              secs.flatMap (fun sec => commentsAtSecond comments s sec),
            messageList := some (feed ++
              secs.flatMap (fun sec => commentsAtSecond comments s sec)),
            evLog := s.evLog ++
              (secs.flatMap (fun sec => commentsAtSecond comments s sec)).map
                TickEv.reveal }, false)
  | [], s, feed, hml, _ => by
      simp [missedGo, ← hml]
  | sec :: rest, s, feed, hml, hsnd => by
      have hsel : ∀ c ∈ commentsAtSecond comments s sec, c ∉ s.shownMessages :=
        fun c hc => (mem_commentsAtSecond.mp hc).2.2
      have hselnd : (commentsAtSecond comments s sec).Nodup :=
        List.Nodup.filter _ hnd
      have hstep := revealList_nofail_spec (commentsAtSecond comments s sec)
        s feed hml hsel hselnd
      rw [missedGo, hstep]
      simp only [Bool.false_eq_true, if_false]
      set s1 : EngineState :=
        { s with shownMessages := s.shownMessages ++ commentsAtSecond comments s sec,
                 messageList := some (feed ++ commentsAtSecond comments s sec),
                 evLog := s.evLog ++
                   (commentsAtSecond comments s sec).map TickEv.reveal } with hs1
      have hrest := missedGo_nofail_spec comments hnd rest s1
        (feed ++ commentsAtSecond comments s sec) rfl
        (List.nodup_cons.mp hsnd).2
      rw [hrest]
      have hcongr : ∀ sec' ∈ rest,
          commentsAtSecond comments s1 sec' = commentsAtSecond comments s sec' := by
        intro sec' hmem
        apply commentsAtSecond_congr comments s s1 sec sec'
          (commentsAtSecond comments s sec) rfl rfl
        · exact fun x hx => (mem_commentsAtSecond.mp hx).2.1
        · intro he
          exact (List.nodup_cons.mp hsnd).1 (he ▸ hmem)
      have hfm : rest.flatMap (fun sec' => commentsAtSecond comments s1 sec') =
          rest.flatMap (fun sec' => commentsAtSecond comments s sec') := by
        unfold List.flatMap
        rw [List.map_congr_left hcongr]
      rw [hfm]
      simp [hs1, List.flatMap_cons, List.append_assoc]

theorem filter_or_append {α : Type} (A B : α → Bool) :
    ∀ (l : List α),
      (∀ x ∈ l, ¬(A x = true ∧ B x = true)) →
      l.Pairwise (fun a b => ¬(B a = true ∧ A b = true)) →
      l.filter (fun x => A x || B x) = l.filter A ++ l.filter B
  | [], _, _ => rfl
  | x :: l, hd, hp => by
      have hl := filter_or_append A B l (fun y hy => hd y (by simp [hy]))
        (List.pairwise_cons.mp hp).2
      by_cases hA : A x = true
      · have hB : ¬ B x = true := fun hB => hd x (by simp) ⟨hA, hB⟩
        simp [List.filter_cons, hA, hB, hl]
      · by_cases hB : B x = true
        · have hAl : l.filter A = [] := by
            rw [List.filter_eq_nil_iff]
            intro y hy hAy
            exact (List.pairwise_cons.mp hp).1 y hy ⟨hB, hAy⟩
          simp [List.filter_cons, hA, hB, hl, hAl]
        · simp [List.filter_cons, hA, hB, hl]

theorem mem_secondsRange {lo hi sec : Int} :
    sec ∈ secondsRange lo hi ↔ lo ≤ sec ∧ sec ≤ hi := by
  simp only [secondsRange, List.mem_map, List.mem_range]
  constructor
  · rintro ⟨k, hk, rfl⟩
    omega
  · intro h
    exact ⟨(sec - lo).toNat, by omega, by omega⟩

theorem secondsRange_pairwise (lo hi : Int) :
    (secondsRange lo hi).Pairwise (· < ·) := by
  unfold secondsRange
  rw [List.pairwise_map]
  refine List.Pairwise.imp ?_ (List.pairwise_lt_range _)
  intro a b h
  dsimp only
  omega

theorem secondsRange_nodup (lo hi : Int) : (secondsRange lo hi).Nodup :=
  List.Pairwise.imp (fun h => by omega) (secondsRange_pairwise lo hi)

theorem flatMap_commentsAtSecond_sorted (comments : List Comment)
    (s : EngineState)
    (hsorted : comments.Pairwise
      (fun a b => a.content_offset_seconds ≤ b.content_offset_seconds)) :
    ∀ (secs : List Int), secs.Pairwise (· < ·) →
      secs.flatMap (fun sec => commentsAtSecond comments s sec) =
        comments.filter (fun c =>
          decide (∃ sec ∈ secs,
            c.content_offset_seconds + getTimeOffset s = (sec : ℚ)) &&
          decide (c ∉ s.shownMessages))
  | [], _ => by simp
  | sec :: rest, hp => by
      have ih := flatMap_commentsAtSecond_sorted comments s hsorted rest
        (List.pairwise_cons.mp hp).2
      have hhead : ∀ sec' ∈ rest, sec < sec' := (List.pairwise_cons.mp hp).1
      rw [List.flatMap_cons, ih]
      have hsplit := filter_or_append
        (fun c => decide (c.content_offset_seconds + getTimeOffset s = (sec : ℚ)) &&
          decide (c ∉ s.shownMessages))
        (fun c => decide (∃ sec' ∈ rest,
            c.content_offset_seconds + getTimeOffset s = (sec' : ℚ)) &&
          decide (c ∉ s.shownMessages))
        comments
        (by
          intro x _ hx
          simp only [Bool.and_eq_true, decide_eq_true_eq] at hx
          obtain ⟨⟨h1, _⟩, ⟨sec', hsec', h2⟩, _⟩ := hx
          rw [h1] at h2
          have : (sec : Int) = sec' := by exact_mod_cast h2
          exact absurd (hhead sec' hsec') (by omega))
        (by
          apply List.Pairwise.imp ?_ hsorted
          intro a b hab hx
          simp only [Bool.and_eq_true, decide_eq_true_eq] at hx
          obtain ⟨⟨⟨sec', hsec', h1⟩, _⟩, h2, _⟩ := hx
          have hle : a.content_offset_seconds + getTimeOffset s ≤
              b.content_offset_seconds + getTimeOffset s := by
            exact add_le_add_right hab _
          rw [h1, h2] at hle
          have : (sec' : Int) ≤ sec := by exact_mod_cast hle
          exact absurd (hhead sec' hsec') (by omega))
      rw [show commentsAtSecond comments s sec = comments.filter
        (fun c => decide (c.content_offset_seconds + getTimeOffset s = (sec : ℚ)) &&
          decide (c ∉ s.shownMessages)) from rfl]
      rw [← hsplit]
      apply List.filter_congr
      intro x _
      by_cases h1 : x.content_offset_seconds + getTimeOffset s = (sec : ℚ) <;>
        by_cases h2 : (∃ sec' ∈ rest,
          x.content_offset_seconds + getTimeOffset s = (sec' : ℚ)) <;>
        by_cases h3 : x ∉ s.shownMessages <;>
        simp [h1, h2, h3, List.exists_mem_cons_iff]

theorem showCurrentSecond_components (s : EngineState) (cur : Int) (now : ℚ) :
    (showCurrentSecondMessages s cur now).messageList = s.messageList ∧
    (showCurrentSecondMessages s cur now).shownMessages = s.shownMessages ∧
    (showCurrentSecondMessages s cur now).lastSecond = s.lastSecond ∧
    (showCurrentSecondMessages s cur now).chatData = s.chatData ∧
    (showCurrentSecondMessages s cur now).timeOffset = s.timeOffset ∧
    (showCurrentSecondMessages s cur now).videoInterval = s.videoInterval ∧
    (showCurrentSecondMessages s cur now).videoPresent = s.videoPresent ∧
    (showCurrentSecondMessages s cur now).isActive = s.isActive := by
  unfold showCurrentSecondMessages
  rcases hcd : s.chatData with _ | l
  · simp [hcd]
  · simp only []
    split <;> simp [hcd]

theorem showCurrentSecond_pending (s : EngineState) (l : List Comment)
    (cur : Int) (now : ℚ) (hcd : s.chatData = some l) :
    (showCurrentSecondMessages s cur now).pending =
      s.pending ++ (commentsAtSecond l s cur).enum.map
        (fun p => (now + ((p.1 : ℚ) * 1000) /
          (((commentsAtSecond l s cur).length : ℕ) : ℚ), p.2)) := by
  unfold showCurrentSecondMessages
  rw [hcd]
  simp only []
  split
  · rfl
  · rename_i hc
    have : commentsAtSecond l s cur = [] := by
      cases h : commentsAtSecond l s cur with
      | nil => rfl
      | cons a t => exact absurd (by rw [h]; simp) hc
    simp [this]

theorem showCurrentSecond_evLog (s : EngineState) (l : List Comment)
    (cur : Int) (now : ℚ) (hcd : s.chatData = some l) :
    (showCurrentSecondMessages s cur now).evLog =
      s.evLog ++ (commentsAtSecond l s cur).map (fun c => TickEv.sched c) := by
  unfold showCurrentSecondMessages
  rw [hcd]
  simp only []
  split
  · rfl
  · rename_i hc
    have : commentsAtSecond l s cur = [] := by
      cases h : commentsAtSecond l s cur with
      | nil => rfl
      | cons a t => exact absurd (by rw [h]; simp) hc
    simp [this]

theorem videoTick_no_jump (fails : Comment → Bool) (s : EngineState)
    (ct now : ℚ) (cur : Int)
    (hInt : s.videoInterval = true) (hVid : s.videoPresent = true)
    (hcur : cur = Rat.floor ct) (hne : cur ≠ s.lastSecond)
    (h1 : (cur - s.lastSecond).natAbs ≤ 1) :
    videoTick fails s ct false now =
      showCurrentSecondMessages
        { s with lastSecond := cur, evLog := s.evLog ++ [TickEv.setLast cur] }
        cur now := by
  unfold videoTick
  rw [hInt, hVid, ← hcur]
  simp only [Bool.not_true, Bool.or_false, Bool.false_eq_true, if_false,
    if_neg hne, if_neg (by omega : ¬ 15 < (cur - s.lastSecond).natAbs),
    if_neg (by omega : ¬ 1 < (cur - s.lastSecond).natAbs)]
  rw [hInt, hVid]

theorem videoTick_small_jump (fails : Comment → Bool) (s : EngineState)
    (ct now : ℚ) (cur : Int)
    (hInt : s.videoInterval = true) (hVid : s.videoPresent = true)
    (hcur : cur = Rat.floor ct)
    (h1 : 1 < (cur - s.lastSecond).natAbs)
    (h15 : (cur - s.lastSecond).natAbs ≤ 15) :
    videoTick fails s ct false now =
      showCurrentSecondMessages
        { showMissedMessages fails s (min s.lastSecond cur + 1)
            (max s.lastSecond cur) with
          lastSecond := cur,
          evLog := (showMissedMessages fails s (min s.lastSecond cur + 1)
            (max s.lastSecond cur)).evLog ++ [TickEv.setLast cur] }
        cur now := by
  unfold videoTick
  rw [hInt, hVid, ← hcur]
  simp only [Bool.not_true, Bool.or_false, Bool.false_eq_true, if_false,
    if_neg (by omega : ¬ cur = s.lastSecond),
    if_neg (by omega : ¬ 15 < (cur - s.lastSecond).natAbs),
    if_pos h1]

theorem videoTick_large_jump (fails : Comment → Bool) (s : EngineState)
    (ct now : ℚ) (cur : Int)
    (hInt : s.videoInterval = true) (hVid : s.videoPresent = true)
    (hcur : cur = Rat.floor ct)
    (h15 : 15 < (cur - s.lastSecond).natAbs) :
    videoTick fails s ct false now =
      showCurrentSecondMessages
        { showPreviousMessages fails
            { s with shownMessages := [],
                     messageList := s.messageList.map (fun _ => []) } cur with
          lastSecond := cur,
          evLog := (showPreviousMessages fails
            { s with shownMessages := [],
                     messageList := s.messageList.map (fun _ => []) } cur).evLog
            ++ [TickEv.setLast cur] }
        cur now := by
  unfold videoTick
  rw [hInt, hVid, ← hcur]
  simp only [Bool.not_true, Bool.or_false, Bool.false_eq_true, if_false,
    if_neg (by omega : ¬ cur = s.lastSecond), if_pos h15]

/-- Claim C3: on a small jump (1 < |currentSecond - previousSecond| <= 15, in
either direction), the tick reveals immediately and synchronously, in log
order, exactly the not-yet-revealed events whose adjusted timestamp is an
integer second in the range from min(previousSecond, currentSecond) + 1 to
max(previousSecond, currentSecond) (for a jump from 10 to 13 these are the
seconds 11, 12, 13); the RevealedSet is not cleared but extended by exactly
those events, and on a forward small jump nothing is staggered (the
pending queue is unchanged). -/
theorem small_jump_backfill (s : EngineState) (l feed sel : List Comment)
    (ct now : ℚ) (cur lo hi : Int)
    (hInt : s.videoInterval = true) (hVid : s.videoPresent = true)
    (hcd : s.chatData = some l) (hml : s.messageList = some feed)
    (hnd : l.Nodup)
    (hsorted : l.Pairwise (fun a b =>
      a.content_offset_seconds ≤ b.content_offset_seconds))
    (hcur : cur = Rat.floor ct)
    (h1 : 1 < (cur - s.lastSecond).natAbs)
    (h15 : (cur - s.lastSecond).natAbs ≤ 15)
    (hlo : lo = min s.lastSecond cur + 1)
    (hhi : hi = max s.lastSecond cur)
    (hsel : sel = l.filter (fun c =>
      decide (∃ sec ∈ secondsRange lo hi,
        c.content_offset_seconds + getTimeOffset s = (sec : ℚ)) &&
      decide (c ∉ s.shownMessages))) :
    (videoTick noFail s ct false now).messageList = some (feed ++ sel) ∧
    (videoTick noFail s ct false now).shownMessages = s.shownMessages ++ sel ∧
    (videoTick noFail s ct false now).lastSecond = cur ∧
    (s.lastSecond < cur → (videoTick noFail s ct false now).pending = s.pending) := by
  rw [videoTick_small_jump noFail s ct now cur hInt hVid hcur h1 h15, ← hlo, ← hhi]
  have hmiss : showMissedMessages noFail s lo hi =
      { s with shownMessages := s.shownMessages ++ sel,
               messageList := some (feed ++ sel),
               evLog := s.evLog ++ sel.map TickEv.reveal } := by
    have hmiss0 : showMissedMessages noFail s lo hi =
        (missedGo noFail l s (secondsRange lo hi)).1 := by
      simp [showMissedMessages, hcd]
    have hgo := missedGo_nofail_spec l hnd (secondsRange lo hi) s feed hml
      (secondsRange_nodup lo hi)
    have hd := flatMap_commentsAtSecond_sorted l s hsorted (secondsRange lo hi)
      (secondsRange_pairwise lo hi)
    rw [hmiss0, hgo]
    simp only []
    rw [hd, ← hsel]
  rw [hmiss]
  obtain ⟨cm, cs, cl, ccd, cto, _, _, _⟩ := showCurrentSecond_components
    { s with shownMessages := s.shownMessages ++ sel,
             messageList := some (feed ++ sel),
             evLog := (s.evLog ++ sel.map TickEv.reveal) ++ [TickEv.setLast cur],
             lastSecond := cur } cur now
  refine ⟨by rw [cm], by rw [cs], by rw [cl], ?_⟩
  intro hfor
  have hempty : commentsAtSecond l
      { s with shownMessages := s.shownMessages ++ sel,
               messageList := some (feed ++ sel),
               evLog := (s.evLog ++ sel.map TickEv.reveal) ++ [TickEv.setLast cur],
               lastSecond := cur } cur = [] := by
    unfold commentsAtSecond
    rw [List.filter_eq_nil_iff]
    intro x hx hcond
    simp only [getTimeOffset, Bool.and_eq_true, decide_eq_true_eq] at hcond
    obtain ⟨hadj, hnot⟩ := hcond
    simp only [List.mem_append, not_or] at hnot
    apply hnot.2
    rw [hsel]
    rw [List.mem_filter]
    refine ⟨hx, ?_⟩
    simp only [Bool.and_eq_true, decide_eq_true_eq]
    exact ⟨⟨cur, mem_secondsRange.mpr (by omega), hadj⟩, hnot.1⟩
  have hp := showCurrentSecond_pending
    { s with shownMessages := s.shownMessages ++ sel,
             messageList := some (feed ++ sel),
             evLog := (s.evLog ++ sel.map TickEv.reveal) ++ [TickEv.setLast cur],
             lastSecond := cur } l cur now (by exact hcd)
  rw [hp, hempty]
  simp

/-- Bridge between the executable Rat.floor used in the embedding and
Mathlib's floor, whose instance for the rationals is built from it. -/
theorem ratFloor_eq_intFloor (q : ℚ) : Rat.floor q = ⌊q⌋ := rfl

/-- Witness for claim C3: the jump 10 -> 13 on sSmall is a small jump and
reveals exactly w3 and w4 (w2 being already revealed), immediately, in log
order, with nothing staggered and the RevealedSet preserved. -/
theorem small_jump_backfill_witness :
    1 < ((13 : Int) - sSmall.lastSecond).natAbs ∧
    ((13 : Int) - sSmall.lastSecond).natAbs ≤ 15 ∧
    [w3, w4] = [w1, w2, w3, w4].filter (fun c =>
      decide (∃ sec ∈ secondsRange 11 13,
        c.content_offset_seconds + getTimeOffset sSmall = (sec : ℚ)) &&
      decide (c ∉ sSmall.shownMessages)) ∧
    (videoTick noFail sSmall 13 false 0).messageList = some ([w2] ++ [w3, w4]) ∧
    (videoTick noFail sSmall 13 false 0).shownMessages = [w2] ++ [w3, w4] ∧
    (videoTick noFail sSmall 13 false 0).lastSecond = 13 ∧
    (sSmall.lastSecond < 13 →
      (videoTick noFail sSmall 13 false 0).pending = sSmall.pending) := by
  have hsel : [w3, w4] = [w1, w2, w3, w4].filter (fun c =>
      decide (∃ sec ∈ secondsRange 11 13,
        c.content_offset_seconds + getTimeOffset sSmall = (sec : ℚ)) &&
      decide (c ∉ sSmall.shownMessages)) := by
    rw [show secondsRange 11 13 = [11, 12, 13] from rfl]
    norm_num [List.filter, w1, w2, w3, w4, sSmall, getTimeOffset,
      List.exists_mem_cons_iff, Comment.mk.injEq]
  have hmain := small_jump_backfill sSmall [w1, w2, w3, w4] [w2] [w3, w4]
    13 0 13 11 13 rfl rfl rfl rfl
    (by norm_num [w1, w2, w3, w4, Comment.mk.injEq])
    (by norm_num [w1, w2, w3, w4])
    (by rw [ratFloor_eq_intFloor]; norm_num)
    (by decide) (by decide) (by decide) (by decide) hsel
  exact ⟨by decide, by decide, hsel, hmain.1, hmain.2.1, hmain.2.2.1,
    hmain.2.2.2⟩

/-- Claim C1 is violated by the code: on the large jump 5 -> 200, the most
recent event strictly before second 200 (cA, adjusted timestamp 100) should
be revealed as context, but the engine reveals nothing at all: findIndex
runs over a reversed copy of the log (finding index 0) while the loop bounds
Math.max(0, 0 - 25) = 0 to 0 - 1 are applied to the unreversed array, so the
backfill is empty.  The whole tick performs no reveal: the RevealedSet and
feed stay empty and the only action is the lastSecond update. -/
theorem large_jump_reveals_nothing_eval :
    (videoTick noFail sLarge 200 false 0).shownMessages = [] ∧
    (videoTick noFail sLarge 200 false 0).messageList = some [] ∧
    (videoTick noFail sLarge 200 false 0).pending = [] ∧
    (videoTick noFail sLarge 200 false 0).evLog = [TickEv.setLast 200] := by
  norm_num [videoTick, sLarge, showPreviousMessages, prevGo,
    showCurrentSecondMessages, commentsAtSecond, getTimeOffset, cA,
    Rat.floor, List.findIdx?]

/-- Claim C2 is violated by the code: membership in the RevealedSet is
marked only when a deferred reveal fires (inside showMessage), not when it
is scheduled.  In the legal 100 ms-sampled run that ticks to second 11 at
t=0 (scheduling cB1 at due 0 and cB2 at due 500), seeks back to 10.5 at
t=100 and forward to 11 again at t=200 (re-selecting cB2, still unmarked,
due 200), the RevealedSet is never cleared, yet after all timers fire the
feed contains cB2 twice. -/
theorem stagger_rereveal_duplicate_eval :
    (flushTimers noFail (runSamples noFail sC2
      [(0, 11, false), (100, 21/2, false), (200, 11, false)])).messageList
      = some [cB1, cB2, cB2] := by
  norm_num [runSamples, flushTimers, flushAux, fireDue, fireDueAux, popDue,
    dueMin, removeFirstDue, fireTimer, videoTick, sC2, showMessage, addShown,
    showCurrentSecondMessages, showMissedMessages, missedGo, revealList,
    secondsRange, commentsAtSecond, getTimeOffset, cB1, cB2, noFail,
    Rat.floor, List.enum, List.enumFrom]

/-! ### The ghost log only ever grows, and what each phase appends -/

theorem showMessage_evLog (fails : Comment → Bool) (s : EngineState)
    (c : Comment) : ∃ d, (showMessage fails s c).1.evLog = s.evLog ++ d := by
  unfold showMessage
  rcases s.messageList with _ | feed
  · exact ⟨[], by simp⟩
  · by_cases hf : fails c = true <;> simp [hf]

theorem revealList_evLog (fails : Comment → Bool) :
    ∀ (cs : List Comment) (s : EngineState),
      ∃ d, (revealList fails s cs).1.evLog = s.evLog ++ d
  | [], s => ⟨[], by simp [revealList]⟩
  | c :: rest, s => by
      unfold revealList
      rcases h : showMessage fails s c with ⟨s1, b⟩
      have h1 : ∃ d, s1.evLog = s.evLog ++ d := by
        have := showMessage_evLog fails s c
        rwa [h] at this
      obtain ⟨d1, hd1⟩ := h1
      cases b
      · obtain ⟨d2, hd2⟩ := revealList_evLog fails rest s1
        exact ⟨d1 ++ d2, by simp [hd2, hd1]⟩
      · exact ⟨d1, by simpa using hd1⟩

theorem missedGo_evLog (fails : Comment → Bool) (comments : List Comment) :
    ∀ (secs : List Int) (s : EngineState),
      ∃ d, (missedGo fails comments s secs).1.evLog = s.evLog ++ d
  | [], s => ⟨[], by simp [missedGo]⟩
  | sec :: rest, s => by
      unfold missedGo
      rcases h : revealList fails s (commentsAtSecond comments s sec) with ⟨s1, b⟩
      have h1 : ∃ d, s1.evLog = s.evLog ++ d := by
        have := revealList_evLog fails (commentsAtSecond comments s sec) s
        rwa [h] at this
      obtain ⟨d1, hd1⟩ := h1
      cases b
      · obtain ⟨d2, hd2⟩ := missedGo_evLog fails comments rest s1
        exact ⟨d1 ++ d2, by simp [hd2, hd1]⟩
      · exact ⟨d1, by simpa using hd1⟩

theorem prevGo_evLog (fails : Comment → Bool) (comments : List Comment) :
    ∀ (idxs : List Nat) (s : EngineState),
      ∃ d, (prevGo fails comments s idxs).1.evLog = s.evLog ++ d
  | [], s => ⟨[], by simp [prevGo]⟩
  | i :: rest, s => by
      unfold prevGo
      rcases hc : comments[i]? with _ | c
      · exact prevGo_evLog fails comments rest s
      · by_cases hm : c ∈ s.shownMessages
        · simp only [if_pos hm]
          exact prevGo_evLog fails comments rest s
        · simp only [if_neg hm]
          rcases h : showMessage fails s c with ⟨s1, b⟩
          have h1 : ∃ d, s1.evLog = s.evLog ++ d := by
            have := showMessage_evLog fails s c
            rwa [h] at this
          obtain ⟨d1, hd1⟩ := h1
          cases b
          · obtain ⟨d2, hd2⟩ := prevGo_evLog fails comments rest s1
            exact ⟨d1 ++ d2, by simp [hd2, hd1]⟩
          · exact ⟨d1, by simpa using hd1⟩

theorem showMissedMessages_evLog (fails : Comment → Bool) (s : EngineState)
    (lo hi : Int) :
    ∃ d, (showMissedMessages fails s lo hi).evLog = s.evLog ++ d := by
  unfold showMissedMessages
  rcases hcd : s.chatData with _ | comments
  · exact ⟨[], by simp⟩
  · exact missedGo_evLog fails comments (secondsRange lo hi) s

theorem showPreviousMessages_evLog (fails : Comment → Bool) (s : EngineState)
    (second : Int) :
    ∃ d, (showPreviousMessages fails s second).evLog = s.evLog ++ d := by
  unfold showPreviousMessages
  rcases hcd : s.chatData with _ | comments
  · exact ⟨[], by simp⟩
  · dsimp only
    rcases hf : comments.reverse.findIdx? (fun c =>
        decide (c.content_offset_seconds + getTimeOffset s < (second : ℚ))) with
      _ | firstIdx
    · rw [hf]
      exact ⟨[], by simp⟩
    · rw [hf]
      exact prevGo_evLog fails comments _ s

theorem showCurrentSecond_evLog_general (s : EngineState) (cur : Int)
    (now : ℚ) :
    ∃ d, (showCurrentSecondMessages s cur now).evLog = s.evLog ++ d ∧
      ∀ e ∈ d, ∃ c, e = TickEv.sched c := by
  rcases hcd : s.chatData with _ | l
  · exact ⟨[], by simp [showCurrentSecondMessages, hcd], by simp⟩
  · refine ⟨(commentsAtSecond l s cur).map (fun c => TickEv.sched c),
      showCurrentSecond_evLog s l cur now hcd, ?_⟩
    intro e he
    obtain ⟨c, _, hc⟩ := List.mem_map.mp he
    exact ⟨c, hc.symm⟩

/-- Claim C4 amended: on every classified transition the previousSecond
assignment executes after the synchronous jump-backfill reveals but before
the current-second scheduling, and no reveal of the transition executes
after it within the tick: the tick's trace is (backfill reveals) ++
[setLast] ++ (sched events only).  This holds for every Sink, including a
throwing one, because the jump handlers catch reveal errors internally
before the assignment runs. -/
theorem setLast_precedes_staggered_reveals (fails : Comment → Bool)
    (s : EngineState) (ct now : ℚ) (cur : Int)
    (hInt : s.videoInterval = true) (hVid : s.videoPresent = true)
    (hcur : cur = Rat.floor ct) (hne : cur ≠ s.lastSecond) :
    ∃ pre sched, (videoTick fails s ct false now).evLog =
        s.evLog ++ pre ++ [TickEv.setLast cur] ++ sched ∧
      (∀ e ∈ sched, ∃ c, e = TickEv.sched c) := by
  by_cases h15 : 15 < (cur - s.lastSecond).natAbs
  · rw [videoTick_large_jump fails s ct now cur hInt hVid hcur h15]
    obtain ⟨pre, hpre⟩ := showPreviousMessages_evLog fails
      { s with shownMessages := [],
               messageList := s.messageList.map (fun _ => []) } cur
    obtain ⟨sched, hsched, hall⟩ := showCurrentSecond_evLog_general
      { showPreviousMessages fails
          { s with shownMessages := [],
                   messageList := s.messageList.map (fun _ => []) } cur with
        lastSecond := cur,
        evLog := (showPreviousMessages fails
          { s with shownMessages := [],
                   messageList := s.messageList.map (fun _ => []) } cur).evLog
          ++ [TickEv.setLast cur] } cur now
    refine ⟨pre, sched, ?_, hall⟩
    rw [hsched]
    simp only []
    rw [hpre]
  · by_cases h1 : 1 < (cur - s.lastSecond).natAbs
    · rw [videoTick_small_jump fails s ct now cur hInt hVid hcur h1 (by omega)]
      obtain ⟨pre, hpre⟩ := showMissedMessages_evLog fails s
        (min s.lastSecond cur + 1) (max s.lastSecond cur)
      obtain ⟨sched, hsched, hall⟩ := showCurrentSecond_evLog_general
        { showMissedMessages fails s (min s.lastSecond cur + 1)
            (max s.lastSecond cur) with
          lastSecond := cur,
          evLog := (showMissedMessages fails s (min s.lastSecond cur + 1)
            (max s.lastSecond cur)).evLog ++ [TickEv.setLast cur] } cur now
      refine ⟨pre, sched, ?_, hall⟩
      rw [hsched]
      simp only []
      rw [hpre]
    · rw [videoTick_no_jump fails s ct now cur hInt hVid hcur hne (by omega)]
      obtain ⟨sched, hsched, hall⟩ := showCurrentSecond_evLog_general
        { s with lastSecond := cur,
                 evLog := s.evLog ++ [TickEv.setLast cur] } cur now
      refine ⟨[], sched, ?_, hall⟩
      rw [hsched]
      simp [List.append_assoc]

/-- Claim C4 as stated is violated: on the small jump 10 -> 13 with an
event at second 12, the backfill reveal of cD executes strictly before the
previousSecond assignment - the tick trace is [reveal cD, setLast 13], not
setLast-first. -/
theorem reveal_precedes_setLast_eval :
    (videoTick noFail sC4 13 false 0).evLog =
      [TickEv.reveal cD, TickEv.setLast 13] := by
  norm_num [videoTick, sC4, showMissedMessages, missedGo, revealList,
    showMessage, addShown, secondsRange, commentsAtSecond,
    showCurrentSecondMessages, getTimeOffset, cD, noFail, Rat.floor]

/-- Witness for the amended claim C4 at the same small jump:
the trace decomposes as pre ++ [setLast 13] ++ sched with only sched
events after the assignment. -/
theorem setLast_precedes_staggered_reveals_witness :
    sC4.videoInterval = true ∧ (13 : Int) = Rat.floor (13 : ℚ) ∧
    (13 : Int) ≠ sC4.lastSecond ∧
    (∃ pre sched, (videoTick noFail sC4 13 false 0).evLog =
        sC4.evLog ++ pre ++ [TickEv.setLast 13] ++ sched ∧
      (∀ e ∈ sched, ∃ c, e = TickEv.sched c)) := by
  refine ⟨rfl, by rw [ratFloor_eq_intFloor]; norm_num, by decide, ?_⟩
  exact setLast_precedes_staggered_reveals noFail sC4 13 0 13 rfl rfl
    (by rw [ratFloor_eq_intFloor]; norm_num) (by decide)

theorem showMessage_fail_spec (fails : Comment → Bool) (s : EngineState)
    (c : Comment) (feed : List Comment) (hml : s.messageList = some feed)
    (hf : fails c = true) :
    showMessage fails s c =
      ({ s with shownMessages := addShown s.shownMessages c,
                evLog := s.evLog ++ [TickEv.reveal c] }, true) := by
  simp [showMessage, hml, hf]

theorem showMessage_ok_spec (fails : Comment → Bool) (s : EngineState)
    (c : Comment) (feed : List Comment) (hml : s.messageList = some feed)
    (hf : fails c = false) :
    showMessage fails s c =
      ({ s with shownMessages := addShown s.shownMessages c,
                messageList := some (feed ++ [c]),
                evLog := s.evLog ++ [TickEv.reveal c] }, false) := by
  simp [showMessage, hml, hf]

theorem revealList_takeWhile (fails : Comment → Bool) :
    ∀ (cs : List Comment) (s : EngineState) (feed : List Comment),
      s.messageList = some feed →
      (revealList fails s cs).1.messageList =
        some (feed ++ cs.takeWhile (fun c => !fails c))
  | [], s, feed, hml => by simp [revealList, hml]
  | c :: rest, s, feed, hml => by
      unfold revealList
      by_cases hf : fails c = true
      · rw [showMessage_fail_spec fails s c feed hml hf]
        simp [List.takeWhile_cons, hf, hml]
      · rw [showMessage_ok_spec fails s c feed hml
          (by revert hf; cases fails c <;> simp)]
        have hrec := revealList_takeWhile fails rest
          { s with shownMessages := addShown s.shownMessages c,
                   messageList := some (feed ++ [c]),
                   evLog := s.evLog ++ [TickEv.reveal c] }
          (feed ++ [c]) rfl
        simp only [Bool.false_eq_true, if_false]
        rw [hrec]
        simp [List.takeWhile_cons, hf]

theorem secondsRange_self (sec : Int) : secondsRange sec sec = [sec] := by
  unfold secondsRange
  rw [show (sec + 1 - sec).toNat = 1 from by omega,
    show List.range 1 = [0] from rfl]
  simp

theorem videoTick_lastSecond_updated (fails : Comment → Bool)
    (s : EngineState) (ct now : ℚ) (cur : Int)
    (hInt : s.videoInterval = true) (hVid : s.videoPresent = true)
    (hcur : cur = Rat.floor ct) (hne : cur ≠ s.lastSecond) :
    (videoTick fails s ct false now).lastSecond = cur := by
  by_cases h15 : 15 < (cur - s.lastSecond).natAbs
  · rw [videoTick_large_jump fails s ct now cur hInt hVid hcur h15]
    exact (showCurrentSecond_components _ cur now).2.2.1
  · by_cases h1 : 1 < (cur - s.lastSecond).natAbs
    · rw [videoTick_small_jump fails s ct now cur hInt hVid hcur h1 (by omega)]
      exact (showCurrentSecond_components _ cur now).2.2.1
    · rw [videoTick_no_jump fails s ct now cur hInt hVid hcur hne (by omega)]
      exact (showCurrentSecond_components _ cur now).2.2.1

theorem showMessage_shown_length (fails : Comment → Bool) (s : EngineState)
    (c : Comment) :
    (showMessage fails s c).1.shownMessages.length ≤
      s.shownMessages.length + 1 := by
  unfold showMessage addShown
  rcases s.messageList with _ | feed
  · simp
  · by_cases hf : fails c = true <;> by_cases hm : c ∈ s.shownMessages <;>
      simp [hf, hm]

theorem prevGo_feed_eq_shown (comments : List Comment) :
    ∀ (idxs : List Nat) (s : EngineState),
      s.messageList = some s.shownMessages →
      (prevGo noFail comments s idxs).1.messageList =
        some (prevGo noFail comments s idxs).1.shownMessages
  | [], s, hml => by simpa [prevGo] using hml
  | i :: rest, s, hml => by
      unfold prevGo
      rcases hc : comments[i]? with _ | c
      · exact prevGo_feed_eq_shown comments rest s hml
      · by_cases hm : c ∈ s.shownMessages
        · simp only [if_pos hm]
          exact prevGo_feed_eq_shown comments rest s hml
        · simp only [if_neg hm]
          rw [showMessage_nofail_spec s c s.shownMessages hml]
          simp only [Bool.false_eq_true, if_false]
          exact prevGo_feed_eq_shown comments rest _
            (by simp [addShown_of_not_mem hm])

theorem prevGo_shown_length (fails : Comment → Bool) (comments : List Comment) :
    ∀ (idxs : List Nat) (s : EngineState),
      (prevGo fails comments s idxs).1.shownMessages.length ≤
        s.shownMessages.length + idxs.length
  | [], s => by simp [prevGo]
  | i :: rest, s => by
      unfold prevGo
      rcases hc : comments[i]? with _ | c
      · have := prevGo_shown_length fails comments rest s
        simpa using Nat.le_trans this (by omega)
      · by_cases hm : c ∈ s.shownMessages
        · simp only [if_pos hm]
          have := prevGo_shown_length fails comments rest s
          simp only [List.length_cons]
          omega
        · simp only [if_neg hm]
          rcases h : showMessage fails s c with ⟨s1, b⟩
          have hlen : s1.shownMessages.length ≤ s.shownMessages.length + 1 := by
            have := showMessage_shown_length fails s c
            rwa [h] at this
          cases b
          · simp only [Bool.false_eq_true, if_false]
            have := prevGo_shown_length fails comments rest s1
            simp only [List.length_cons]
            omega
          · simp only [if_true]
            simp only [List.length_cons]
            omega

theorem showMessage_shown_mem (fails : Comment → Bool) (s : EngineState)
    (c x : Comment) (hx : x ∈ (showMessage fails s c).1.shownMessages) :
    x ∈ s.shownMessages ∨ x = c := by
  revert hx
  unfold showMessage
  rcases s.messageList with _ | feed
  · exact fun hx => Or.inl hx
  · by_cases hf : fails c = true <;> simp [hf, mem_addShown]

theorem prevGo_shown_mem (fails : Comment → Bool) (comments : List Comment) :
    ∀ (idxs : List Nat) (s : EngineState) (x : Comment),
      x ∈ (prevGo fails comments s idxs).1.shownMessages →
      x ∈ s.shownMessages ∨ x ∈ comments
  | [], s, x => by simp [prevGo]; exact Or.inl
  | i :: rest, s, x => by
      unfold prevGo
      rcases hc : comments[i]? with _ | c
      · exact prevGo_shown_mem fails comments rest s x
      · by_cases hm : c ∈ s.shownMessages
        · simp only [if_pos hm]
          exact prevGo_shown_mem fails comments rest s x
        · simp only [if_neg hm]
          rcases h : showMessage fails s c with ⟨s1, b⟩
          have hmem : ∀ y, y ∈ s1.shownMessages → y ∈ s.shownMessages ∨ y = c := by
            intro y hy
            apply showMessage_shown_mem fails s c y
            rw [h]
            exact hy
          have hcm : c ∈ comments := List.getElem?_mem hc
          cases b
          · simp only [Bool.false_eq_true, if_false]
            intro hx
            rcases prevGo_shown_mem fails comments rest s1 x hx with h1 | h1
            · rcases hmem x h1 with h2 | h2
              · exact Or.inl h2
              · exact Or.inr (h2 ▸ hcm)
            · exact Or.inr h1
          · simp only [if_true]
            intro hx
            rcases hmem x hx with h2 | h2
            · exact Or.inl h2
            · exact Or.inr (h2 ▸ hcm)

theorem refreshChatWithNewOffset_eq (fails : Comment → Bool)
    (s : EngineState) (ct : ℚ) (l feed : List Comment)
    (hVid : s.videoPresent = true) (hcd : s.chatData = some l)
    (hml : s.messageList = some feed) :
    refreshChatWithNewOffset fails s ct =
      showPreviousMessages fails
        { s with shownMessages := [], messageList := some [],
                 lastSecond := -1 } (Rat.floor ct) := by
  unfold refreshChatWithNewOffset
  rw [hVid, hcd, hml]
  simp only [Bool.not_true, Bool.false_eq_true, if_false]

theorem showPreviousMessages_post (s1 : EngineState) (l : List Comment)
    (second : Int) (hcd : s1.chatData = some l) :
    (showPreviousMessages noFail s1 second).lastSecond = s1.lastSecond ∧
    (showPreviousMessages noFail s1 second).pending = s1.pending ∧
    (showPreviousMessages noFail s1 second).timeOffset = s1.timeOffset ∧
    (s1.messageList = some s1.shownMessages →
      (showPreviousMessages noFail s1 second).messageList =
        some (showPreviousMessages noFail s1 second).shownMessages) ∧
    (showPreviousMessages noFail s1 second).shownMessages.length ≤
      s1.shownMessages.length + 25 ∧
    (∀ c ∈ (showPreviousMessages noFail s1 second).shownMessages,
      c ∈ s1.shownMessages ∨ c ∈ l) := by
  unfold showPreviousMessages
  rw [hcd]
  dsimp only
  rcases hf : l.reverse.findIdx? (fun c =>
      decide (c.content_offset_seconds + getTimeOffset s1 < (second : ℚ)))
    with _ | firstIdx
  · rw [hf]
    dsimp only
    exact ⟨rfl, rfl, rfl, fun h => h, by omega, fun c hc => Or.inl hc⟩
  · rw [hf]
    dsimp only
    obtain ⟨_, c2, c3, c4, _, _, _⟩ := prevGo_sameCore noFail l
      ((List.range (firstIdx - (firstIdx - 25))).map
        (fun k => firstIdx - 25 + k)) s1
    refine ⟨by rw [c3], by rw [c4], by rw [c2], ?_, ?_, ?_⟩
    · exact fun h => prevGo_feed_eq_shown l _ s1 h
    · have h1 := prevGo_shown_length noFail l
        ((List.range (firstIdx - (firstIdx - 25))).map
          (fun k => firstIdx - 25 + k)) s1
      have h2 : ((List.range (firstIdx - (firstIdx - 25))).map
          (fun k : Nat => firstIdx - 25 + k)).length ≤ 25 := by
        simp
        omega
      omega
    · exact prevGo_shown_mem noFail l _ s1

/-- Claim C6 amended: changing the offset while tracking clears the
RevealedSet and the displayed feed, resets previousSecond to the sentinel
-1, and then immediately re-runs only the previous-messages backfill under
the new offset: afterwards the feed equals the RevealedSet, which holds at
most 25 events of the log; the current second's events are not revealed by
the refresh itself (they can only be revealed by later sample ticks), and
pending staggered reveals scheduled before the change are not cancelled. -/
theorem offset_refresh_spec (s : EngineState) (l feed : List Comment)
    (ct : ℚ) (hVid : s.videoPresent = true) (hcd : s.chatData = some l)
    (hml : s.messageList = some feed) :
    (refreshChatWithNewOffset noFail s ct).lastSecond = -1 ∧
    (refreshChatWithNewOffset noFail s ct).pending = s.pending ∧
    (refreshChatWithNewOffset noFail s ct).timeOffset = s.timeOffset ∧
    (refreshChatWithNewOffset noFail s ct).messageList =
      some (refreshChatWithNewOffset noFail s ct).shownMessages ∧
    (refreshChatWithNewOffset noFail s ct).shownMessages.length ≤ 25 ∧
    ∀ c ∈ (refreshChatWithNewOffset noFail s ct).shownMessages, c ∈ l := by
  rw [refreshChatWithNewOffset_eq noFail s ct l feed hVid hcd hml]
  obtain ⟨p1, p2, p3, p4, p5, p6⟩ := showPreviousMessages_post
    { s with shownMessages := [], messageList := some [], lastSecond := -1 }
    l (Rat.floor ct) (by simpa using hcd)
  refine ⟨by rw [p1], by rw [p2], by rw [p3], p4 rfl, by simpa using p5, ?_⟩
  intro c hc
  rcases p6 c hc with h | h
  · simp at h
  · exact h

/-- Claim C6 as stated is violated: after the offset refresh at
currentSecond = 50, the RevealedSet does NOT contain the current second's
event cC (adjusted timestamp 50): a fresh large jump to 50 would have
revealed it via showCurrentSecondMessages, but refreshChatWithNewOffset
only runs the previous-messages backfill (strictly-before comparison), so
the RevealedSet ends up empty; the stale pending reveal is also not
cancelled. -/
theorem offset_refresh_misses_current_eval :
    (refreshChatWithNewOffset noFail sC6 50).shownMessages = [] ∧
    cC ∉ (refreshChatWithNewOffset noFail sC6 50).shownMessages ∧
    (refreshChatWithNewOffset noFail sC6 50).pending = [(500, cC)] := by
  norm_num [refreshChatWithNewOffset, showPreviousMessages, prevGo, sC6, cC,
    getTimeOffset, Rat.floor, List.findIdx?, noFail]

/-- Witness for the amended claim C6 at the concrete session sC6. -/
theorem offset_refresh_spec_witness :
    sC6.videoPresent = true ∧ sC6.chatData = some [cC] ∧
    sC6.messageList = some [cC] ∧
    (refreshChatWithNewOffset noFail sC6 50).lastSecond = -1 ∧
    (refreshChatWithNewOffset noFail sC6 50).pending = sC6.pending ∧
    (refreshChatWithNewOffset noFail sC6 50).timeOffset = sC6.timeOffset ∧
    (refreshChatWithNewOffset noFail sC6 50).messageList =
      some (refreshChatWithNewOffset noFail sC6 50).shownMessages ∧
    (refreshChatWithNewOffset noFail sC6 50).shownMessages.length ≤ 25 ∧
    ∀ c ∈ (refreshChatWithNewOffset noFail sC6 50).shownMessages,
      c ∈ [cC] := by
  obtain ⟨p1, p2, p3, p4, p5, p6⟩ := offset_refresh_spec sC6 [cC] [cC] 50
    rfl rfl rfl
  exact ⟨rfl, rfl, rfl, p1, p2, p3, p4, p5, p6⟩

theorem dueMin_mem : ∀ (p : List (ℚ × Comment)) (m : ℚ),
    dueMin p = some m → ∃ x ∈ p, x.1 = m
  | [], m, h => by simp [dueMin] at h
  | (d, c) :: rest, m, h => by
      unfold dueMin at h
      rcases hr : dueMin rest with _ | mr
      · rw [hr] at h
        dsimp only at h
        exact ⟨(d, c), by simp, Option.some_inj.mp h⟩
      · rw [hr] at h
        dsimp only at h
        rcases le_total d mr with hle | hle
        · refine ⟨(d, c), by simp, ?_⟩
          rw [min_eq_left hle] at h
          exact Option.some_inj.mp h
        · obtain ⟨x, hx, hxm⟩ := dueMin_mem rest mr hr
          refine ⟨x, by simp [hx], ?_⟩
          rw [min_eq_right hle] at h
          rw [hxm, Option.some_inj.mp h]

theorem dueMin_cons_of_lt (d : ℚ) (c : Comment)
    (rest : List (ℚ × Comment)) (h : ∀ x ∈ rest, d < x.1) :
    dueMin ((d, c) :: rest) = some d := by
  unfold dueMin
  rcases hr : dueMin rest with _ | mr
  · rfl
  · dsimp only
    obtain ⟨x, hx, hxm⟩ := dueMin_mem rest mr hr
    rw [min_eq_left (le_of_lt (hxm ▸ h x hx))]

theorem flush_ordered :
    ∀ (pend : List (ℚ × Comment)) (s : EngineState) (feed : List Comment),
      s.pending = pend → s.messageList = some feed →
      (pend.map Prod.fst).Pairwise (· < ·) →
      (flushTimers noFail s).messageList = some (feed ++ pend.map Prod.snd)
  | [], s, feed, hp, hml, _ => by
      unfold flushTimers
      rw [hp]
      simpa [flushAux] using hml
  | (d, c) :: rest, s, feed, hp, hml, hsort => by
      obtain ⟨hhead', htail⟩ :
          (∀ (a' : ℚ) (x : Comment), (a', x) ∈ rest → d < a') ∧
            List.Pairwise (· < ·) (rest.map Prod.fst) := by simpa using hsort
      have hhead : ∀ x ∈ rest, d < x.1 := fun x hx =>
        hhead' x.1 x.2 (by simpa using hx)
      have hft : fireTimer noFail { s with pending := rest } c =
          { s with pending := rest,
                   shownMessages := addShown s.shownMessages c,
                   messageList := some (feed ++ [c]),
                   evLog := s.evLog ++ [TickEv.reveal c] } := by
        unfold fireTimer
        rw [showMessage_nofail_spec { s with pending := rest } c feed hml]
      have hrec := flush_ordered rest
        { s with pending := rest,
                 shownMessages := addShown s.shownMessages c,
                 messageList := some (feed ++ [c]),
                 evLog := s.evLog ++ [TickEv.reveal c] }
        (feed ++ [c]) rfl rfl htail
      unfold flushTimers at hrec ⊢
      rw [hp]
      simp only [List.length_cons]
      unfold flushAux
      rw [hp, dueMin_cons_of_lt d c rest hhead]
      dsimp only
      rw [show removeFirstDue d ((d, c) :: rest) = some (c, rest) by
        simp [removeFirstDue]]
      dsimp only
      rw [hft]
      simp only [List.length_cons] at hrec
      rw [hrec]
      simp

theorem stagger_pending_sorted (cs : List Comment) (now : ℚ) :
    ((cs.enum.map (fun p =>
        (now + ((p.1 : ℚ) * 1000) / ((cs.length : ℕ) : ℚ), p.2))).map
      Prod.fst).Pairwise (· < ·) := by
  rw [List.map_map]
  rw [show (Prod.fst ∘ (fun p : Nat × Comment =>
      (now + ((p.1 : ℚ) * 1000) / ((cs.length : ℕ) : ℚ), p.2))) =
    ((fun i : Nat => now + ((i : ℚ) * 1000) / ((cs.length : ℕ) : ℚ)) ∘
      Prod.fst) from rfl]
  rw [← List.map_map, List.enum_map_fst, List.pairwise_map]
  refine List.Pairwise.imp_of_mem ?_ (List.pairwise_lt_range _)
  intro a b ha hb hab
  dsimp only
  have hn : (0 : ℚ) < ((cs.length : ℕ) : ℚ) := by
    have hb' : b < cs.length := List.mem_range.mp hb
    exact_mod_cast Nat.pos_of_ne_zero (by omega)
  have hdiv : ((a : ℚ) * 1000) / ((cs.length : ℕ) : ℚ) <
      ((b : ℚ) * 1000) / ((cs.length : ℕ) : ℚ) := by
    have hmul : ((a : ℚ) * 1000) < ((b : ℚ) * 1000) := by
      have hcast : (a : ℚ) < (b : ℚ) := by exact_mod_cast hab
      nlinarith
    gcongr
  exact add_lt_add_left hdiv now

/-- Claim C7: on a forward tick by exactly 1, with n not-yet-revealed
events sharing the current second, the i-th of them (0-indexed, in log
order) is scheduled to fire (i * 1000) / n milliseconds - i/n of a
second - after the tick (4 events: 0, 250, 500, 750 ms), the due times are
strictly increasing, and firing the timer queue in event-loop order
appends the events to the feed in log order. -/
theorem forward_tick_stagger (s : EngineState) (l feed sel : List Comment)
    (ct now : ℚ) (cur : Int)
    (hInt : s.videoInterval = true) (hVid : s.videoPresent = true)
    (hcd : s.chatData = some l) (hml : s.messageList = some feed)
    (hp : s.pending = [])
    (hcur : cur = Rat.floor ct)
    (hfwd : cur = s.lastSecond + 1)
    (hsel : sel = commentsAtSecond l s cur) :
    (videoTick noFail s ct false now).pending =
      sel.enum.map (fun p =>
        (now + ((p.1 : ℚ) * 1000) / ((sel.length : ℕ) : ℚ), p.2)) ∧
    (flushTimers noFail (videoTick noFail s ct false now)).messageList =
      some (feed ++ sel) := by
  rw [videoTick_no_jump noFail s ct now cur hInt hVid hcur (by omega) (by omega)]
  have hpend := showCurrentSecond_pending
    { s with lastSecond := cur, evLog := s.evLog ++ [TickEv.setLast cur] }
    l cur now hcd
  have hsame : commentsAtSecond l
      { s with lastSecond := cur, evLog := s.evLog ++ [TickEv.setLast cur] }
      cur = commentsAtSecond l s cur := rfl
  rw [hsame, ← hsel] at hpend
  have hpend' : (showCurrentSecondMessages
      { s with lastSecond := cur, evLog := s.evLog ++ [TickEv.setLast cur] }
      cur now).pending =
      sel.enum.map (fun p =>
        (now + ((p.1 : ℚ) * 1000) / ((sel.length : ℕ) : ℚ), p.2)) := by
    rw [hpend]
    dsimp only
    rw [hp]
    simp
  refine ⟨hpend', ?_⟩
  have hmlcur : (showCurrentSecondMessages
      { s with lastSecond := cur, evLog := s.evLog ++ [TickEv.setLast cur] }
      cur now).messageList = some feed := by
    rw [(showCurrentSecond_components _ cur now).1]
    exact hml
  have hflush := flush_ordered
    (sel.enum.map (fun p =>
      (now + ((p.1 : ℚ) * 1000) / ((sel.length : ℕ) : ℚ), p.2)))
    (showCurrentSecondMessages
      { s with lastSecond := cur, evLog := s.evLog ++ [TickEv.setLast cur] }
      cur now)
    feed hpend' hmlcur (stagger_pending_sorted sel now)
  rw [hflush]
  rw [List.map_map]
  rw [show (Prod.snd ∘ (fun p : Nat × Comment =>
      (now + ((p.1 : ℚ) * 1000) / ((sel.length : ℕ) : ℚ), p.2))) =
    (Prod.snd : Nat × Comment → Comment) from rfl]
  rw [List.enum_map_snd]

/-- Witness for claim C7: the forward tick 10 -> 11 with 4 events sharing
second 11 schedules them at 0, 250, 500 and 750 ms after the tick, and
flushing the timers reveals them in log order. -/
theorem forward_tick_stagger_witness :
    (11 : Int) = Rat.floor (11 : ℚ) ∧
    (11 : Int) = sC7.lastSecond + 1 ∧
    [cS1, cS2, cS3, cS4] = commentsAtSecond [cS1, cS2, cS3, cS4] sC7 11 ∧
    (videoTick noFail sC7 11 false 0).pending =
      [cS1, cS2, cS3, cS4].enum.map (fun p =>
        ((0 : ℚ) + ((p.1 : ℚ) * 1000) /
          (([cS1, cS2, cS3, cS4].length : ℕ) : ℚ), p.2)) ∧
    (flushTimers noFail (videoTick noFail sC7 11 false 0)).messageList =
      some ([] ++ [cS1, cS2, cS3, cS4]) ∧
    (videoTick noFail sC7 11 false 0).pending =
      [(0, cS1), (250, cS2), (500, cS3), (750, cS4)] := by
  have hsel : [cS1, cS2, cS3, cS4] =
      commentsAtSecond [cS1, cS2, cS3, cS4] sC7 11 := by
    norm_num [commentsAtSecond, cS1, cS2, cS3, cS4, sC7, getTimeOffset,
      List.filter]
  have h := forward_tick_stagger sC7 [cS1, cS2, cS3, cS4] []
    [cS1, cS2, cS3, cS4] 11 0 11 rfl rfl rfl rfl rfl
    (by rw [ratFloor_eq_intFloor]; norm_num) (by decide) hsel
  refine ⟨by rw [ratFloor_eq_intFloor]; norm_num, by decide, hsel, h.1, h.2,
    ?_⟩
  rw [h.1]
  norm_num [List.enum, List.enumFrom, cS1, cS2, cS3, cS4]

/-- Claim C8: with no explicit offset, the resolved offset is
floor(mediaDuration - lastEventTimestamp) exactly when both inputs are
available and positive and the candidate lies in [-3600, 3600], and the
fixed default 900 in every other case; the source getTimeOffset and
calculateSmartDefaultOffset coincide with the claim-side resolveSpec on
all inputs, and resolve(null, 3600, 3700) = -100 while
resolve(null, 3600, 10000) = 900. -/
theorem resolve_matches_spec :
    (∀ (e : Option Int) (d t : Option ℚ), resolve e d t = resolveSpec e d t) ∧
    resolve none (some 3600) (some 3700) = -100 ∧
    resolve none (some 3600) (some 10000) = 900 := by
  refine ⟨?_, ?_, ?_⟩
  · rintro (_ | o) (_ | d) (_ | t) <;>
      simp only [resolve, resolveSpec, calculateSmartDefaultOffset]
    split_ifs <;> first
      | rfl
      | tauto
      | (exfalso; rename_i h1 h2; obtain ⟨hd, ht, h3, h4⟩ := h2;
          exact h1 ⟨hd.ne', ht.ne', hd, ht⟩)
  · show resolve none (some 3600) (some 3700) = -100
    simp only [resolve, calculateSmartDefaultOffset]
    rw [ratFloor_eq_intFloor]
    norm_num
  · show resolve none (some 3600) (some 10000) = 900
    simp only [resolve, calculateSmartDefaultOffset]
    rw [ratFloor_eq_intFloor]
    norm_num

theorem fireTimer_messageList_none (fails : Comment → Bool) (s : EngineState)
    (c : Comment) (hml : s.messageList = none) : fireTimer fails s c = s := by
  unfold fireTimer showMessage
  rw [hml]

theorem foldl_fireTimer_none (fails : Comment → Bool) :
    ∀ (cs : List Comment) (s : EngineState), s.messageList = none →
      cs.foldl (fireTimer fails) s = s
  | [], s, _ => rfl
  | c :: rest, s, h => by
      rw [List.foldl_cons, fireTimer_messageList_none fails s c h,
        foldl_fireTimer_none fails rest s h]

theorem flushAux_none (fails : Comment → Bool) :
    ∀ (fuel : Nat) (s : EngineState), s.messageList = none →
      (flushAux fails fuel s).messageList = none ∧
      (flushAux fails fuel s).evLog = s.evLog ∧
      (flushAux fails fuel s).shownMessages = s.shownMessages
  | 0, s, h => ⟨h, rfl, rfl⟩
  | fuel + 1, s, h => by
      unfold flushAux
      rcases hm : dueMin s.pending with _ | m
      · exact ⟨h, rfl, rfl⟩
      · dsimp only
        rcases hr : removeFirstDue m s.pending with _ | ⟨c, rest⟩
        · exact ⟨h, rfl, rfl⟩
        · dsimp only
          rw [fireTimer_messageList_none fails { s with pending := rest } c
            (show ({ s with pending := rest } :
              EngineState).messageList = none from h)]
          exact flushAux_none fails fuel { s with pending := rest }
            (show ({ s with pending := rest } :
              EngineState).messageList = none from h)

/-- Claim C9: after cleanup the sampling loop is stopped (videoInterval is
cleared and a subsequent interval callback is a no-op), and no staggered
reveal pending from before the teardown can ever append to the feed: the
deferred callback body, showMessage, checks messageList - the session
liveness guard - before doing anything, so firing any sequence of pending
timers leaves the state unchanged, and even draining the whole timer queue
never appends a reveal (the ghost log and the RevealedSet stay put, and no
feed exists to append to). -/
theorem cleanup_kills_reveals (s : EngineState) (fails : Comment → Bool)
    (cs : List Comment) (ct now : ℚ) (paused : Bool) :
    (cleanup s).videoInterval = false ∧
    videoTick fails (cleanup s) ct paused now = cleanup s ∧
    cs.foldl (fireTimer fails) (cleanup s) = cleanup s ∧
    (flushTimers fails (cleanup s)).messageList = none ∧
    (flushTimers fails (cleanup s)).evLog = s.evLog ∧
    (flushTimers fails (cleanup s)).shownMessages = [] := by
  obtain ⟨f1, f2, f3⟩ := flushAux_none fails (cleanup s).pending.length
    (cleanup s) rfl
  exact ⟨rfl, rfl, foldl_fireTimer_none fails cs (cleanup s) rfl,
    f1, f2, f3⟩

theorem revealList_not_shown (fails : Comment → Bool) :
    ∀ (cs : List Comment) (s : EngineState) (c : Comment),
      c ∉ s.shownMessages → c ∉ cs →
      c ∉ (revealList fails s cs).1.shownMessages
  | [], s, c, hs, _ => by simpa [revealList] using hs
  | x :: rest, s, c, hs, hcs => by
      unfold revealList
      rcases h : showMessage fails s x with ⟨s1, b⟩
      have hs1 : c ∉ s1.shownMessages := by
        intro hmem
        rcases showMessage_shown_mem fails s x c (by rw [h]; exact hmem)
          with h1 | h1
        · exact hs h1
        · exact hcs (by simp [h1])
      cases b
      · simpa using revealList_not_shown fails rest s1 c hs1
          (fun hr => hcs (by simp [hr]))
      · simpa using hs1

theorem missedGo_not_shown (fails : Comment → Bool) (comments : List Comment) :
    ∀ (secs : List Int) (s : EngineState) (c : Comment),
      c ∉ s.shownMessages →
      (∀ sec : Int, c.content_offset_seconds + getTimeOffset s ≠ (sec : ℚ)) →
      c ∉ (missedGo fails comments s secs).1.shownMessages
  | [], s, c, hs, _ => by simpa [missedGo] using hs
  | sec :: rest, s, c, hs, hq => by
      unfold missedGo
      rcases h : revealList fails s (commentsAtSecond comments s sec)
        with ⟨s1, b⟩
      have hnotsel : c ∉ commentsAtSecond comments s sec := by
        intro hmem
        exact hq sec (mem_commentsAtSecond.mp hmem).2.1
      have hs1 : c ∉ s1.shownMessages := by
        have := revealList_not_shown fails (commentsAtSecond comments s sec)
          s c hs hnotsel
        rwa [h] at this
      have hoff : getTimeOffset s1 = getTimeOffset s := by
        have hc := revealList_sameCore fails (commentsAtSecond comments s sec) s
        rw [h] at hc
        exact hc.2.1
      cases b
      · simpa using missedGo_not_shown fails comments rest s1 c hs1
          (by rw [hoff]; exact hq)
      · simpa using hs1

/-- Claim C10: an event whose adjusted timestamp equals no integer second
is never revealed by the small-jump backfill (showMissedMessages) and is
never scheduled by the forward-tick path (showCurrentSecondMessages), both
of which compare the unfloored adjusted timestamp to the integer second
with strict equality; the large-jump previous-messages path, which uses a
strict less-than comparison, can reveal such an event: it reveals cF0
(adjusted timestamp 1/2) on a jump to second 5. -/
theorem fractional_timestamps_skip_equality_paths (s : EngineState)
    (l : List Comment) (c : Comment) (hcd : s.chatData = some l)
    (hq : ∀ sec : Int, c.content_offset_seconds + getTimeOffset s ≠ (sec : ℚ))
    (hns : c ∉ s.shownMessages) :
    (∀ (fails : Comment → Bool) (lo hi : Int),
      c ∉ (showMissedMessages fails s lo hi).shownMessages) ∧
    (∀ (cur : Int) (now : ℚ),
      ∀ x ∈ (showCurrentSecondMessages s cur now).pending,
        x.2 = c → x ∈ s.pending) ∧
    cF0 ∈ (showPreviousMessages noFail sFrac 5).shownMessages ∧
    (∀ sec : Int,
      cF0.content_offset_seconds + getTimeOffset sFrac ≠ (sec : ℚ)) := by
  refine ⟨?_, ?_, ?_, ?_⟩
  · intro fails lo hi
    unfold showMissedMessages
    rw [hcd]
    exact missedGo_not_shown fails l (secondsRange lo hi) s c hns hq
  · intro cur now x hx hxc
    rw [showCurrentSecond_pending s l cur now hcd] at hx
    rcases List.mem_append.mp hx with h1 | h1
    · exact h1
    · exfalso
      obtain ⟨p, hp, hpe⟩ := List.mem_map.mp h1
      have hsnd : p.2 = c := by rw [← hxc, ← hpe]
      have hpm0 : p.2 ∈ (commentsAtSecond l s cur).enum.map Prod.snd :=
        List.mem_map.mpr ⟨p, hp, rfl⟩
      rw [List.enum_map_snd] at hpm0
      have hpm : p.2 ∈ commentsAtSecond l s cur := hpm0
      rw [hsnd] at hpm
      exact hq cur (mem_commentsAtSecond.mp hpm).2.1
  · norm_num [showPreviousMessages, prevGo, showMessage, addShown, sFrac,
      cF0, cF1, cF2, getTimeOffset, List.findIdx?, noFail]
  · intro sec h
    have h0 : ((1 : ℚ)/2) = (sec : ℚ) := by
      simpa [cF0, sFrac, getTimeOffset] using h
    have h1 := congrArg (fun q : ℚ => ⌊q⌋) h0
    norm_num at h1
    rw [← h1] at h0
    norm_num at h0

/-- Witness for claim C10 at the concrete fractional event cF0 (adjusted
timestamp 1/2) in the session sFrac. -/
theorem fractional_timestamps_skip_equality_paths_witness :
    sFrac.chatData = some [cF0, cF1, cF2] ∧
    cF0 ∉ sFrac.shownMessages ∧
    (∀ sec : Int,
      cF0.content_offset_seconds + getTimeOffset sFrac ≠ (sec : ℚ)) ∧
    ((∀ (fails : Comment → Bool) (lo hi : Int),
        cF0 ∉ (showMissedMessages fails sFrac lo hi).shownMessages) ∧
      (∀ (cur : Int) (now : ℚ),
        ∀ x ∈ (showCurrentSecondMessages sFrac cur now).pending,
          x.2 = cF0 → x ∈ sFrac.pending) ∧
      cF0 ∈ (showPreviousMessages noFail sFrac 5).shownMessages ∧
      (∀ sec : Int,
        cF0.content_offset_seconds + getTimeOffset sFrac ≠ (sec : ℚ))) := by
  have hq : ∀ sec : Int,
      cF0.content_offset_seconds + getTimeOffset sFrac ≠ (sec : ℚ) := by
    intro sec h
    have h0 : ((1 : ℚ)/2) = (sec : ℚ) := by
      simpa [cF0, sFrac, getTimeOffset] using h
    have h1 := congrArg (fun q : ℚ => ⌊q⌋) h0
    norm_num at h1
    rw [← h1] at h0
    norm_num at h0
  exact ⟨rfl, by simp [sFrac], hq,
    fractional_timestamps_skip_equality_paths sFrac [cF0, cF1, cF2] cF0
      rfl hq (by simp [sFrac])⟩

theorem takeWhile_append_all {α : Type} (p : α → Bool) :
    ∀ (l1 l2 : List α), (∀ c ∈ l1, p c = true) →
      (l1 ++ l2).takeWhile p = l1 ++ l2.takeWhile p
  | [], l2, _ => rfl
  | c :: t, l2, h => by
      simp only [List.cons_append, List.takeWhile_cons, h c (by simp)]
      rw [takeWhile_append_all p t l2 (fun x hx => h x (by simp [hx]))]
      simp

theorem takeWhile_append_stop {α : Type} (p : α → Bool) :
    ∀ (l1 l2 : List α), (∃ c ∈ l1, p c = false) →
      (l1 ++ l2).takeWhile p = l1.takeWhile p
  | [], _, h => by simp at h
  | c :: t, l2, h => by
      by_cases hc : p c = true
      · have hex : ∃ x ∈ t, p x = false := by
          obtain ⟨x, hx, hpx⟩ := h
          rcases List.mem_cons.mp hx with rfl | hxt
          · rw [hc] at hpx
            exact absurd hpx (by simp)
          · exact ⟨x, hxt, hpx⟩
        simp only [List.cons_append, List.takeWhile_cons, hc]
        rw [takeWhile_append_stop p t l2 hex]
      · have hc' : p c = false := by
          revert hc
          cases p c <;> simp
        simp [List.takeWhile_cons, hc']

theorem takeWhile_all {α : Type} (p : α → Bool) (l : List α)
    (h : ∀ c ∈ l, p c = true) : l.takeWhile p = l := by
  have := takeWhile_append_all p l [] h
  simpa using this

theorem revealList_flag (fails : Comment → Bool) :
    ∀ (cs : List Comment) (s : EngineState) (feed : List Comment),
      s.messageList = some feed →
      ((revealList fails s cs).2 = true ↔ ∃ c ∈ cs, fails c = true)
  | [], s, feed, _ => by simp [revealList]
  | c :: rest, s, feed, hml => by
      unfold revealList
      by_cases hf : fails c = true
      · rw [showMessage_fail_spec fails s c feed hml hf]
        simp [hf, List.exists_mem_cons_iff]
      · have hf' : fails c = false := by
          revert hf
          cases fails c <;> simp
        rw [showMessage_ok_spec fails s c feed hml hf']
        simp only [Bool.false_eq_true, if_false]
        rw [revealList_flag fails rest _ (feed ++ [c]) rfl]
        simp [hf', List.exists_mem_cons_iff]

theorem showMessage_shown_mono (fails : Comment → Bool) (s : EngineState)
    (c x : Comment) (hx : x ∈ s.shownMessages) :
    x ∈ (showMessage fails s c).1.shownMessages := by
  revert hx
  unfold showMessage
  rcases s.messageList with _ | feed
  · exact fun hx => hx
  · by_cases hf : fails c = true <;> simp [hf, mem_addShown] <;> exact Or.inl

theorem revealList_shown_mono (fails : Comment → Bool) :
    ∀ (cs : List Comment) (s : EngineState) (x : Comment),
      x ∈ s.shownMessages → x ∈ (revealList fails s cs).1.shownMessages
  | [], s, x, hx => by simpa [revealList] using hx
  | c :: rest, s, x, hx => by
      unfold revealList
      rcases h : showMessage fails s c with ⟨s1, b⟩
      have hx1 : x ∈ s1.shownMessages := by
        have := showMessage_shown_mono fails s c x hx
        rwa [h] at this
      cases b
      · simpa using revealList_shown_mono fails rest s1 x hx1
      · simpa using hx1

theorem revealList_shown_subset (fails : Comment → Bool) :
    ∀ (cs : List Comment) (s : EngineState) (x : Comment),
      x ∈ (revealList fails s cs).1.shownMessages →
      x ∈ s.shownMessages ∨ x ∈ cs
  | [], s, x => by
      intro h
      exact Or.inl (by simpa [revealList] using h)
  | c :: rest, s, x => by
      unfold revealList
      rcases h : showMessage fails s c with ⟨s1, b⟩
      have hstep : ∀ y, y ∈ s1.shownMessages →
          y ∈ s.shownMessages ∨ y = c := by
        intro y hy
        apply showMessage_shown_mem fails s c y
        rw [h]
        exact hy
      cases b
      · intro hmem
        rcases revealList_shown_subset fails rest s1 x (by simpa using hmem)
          with h1 | h1
        · rcases hstep x h1 with h2 | h2
          · exact Or.inl h2
          · exact Or.inr (by simp [h2])
        · exact Or.inr (by simp [h1])
      · intro hmem
        rcases hstep x (by simpa using hmem) with h2 | h2
        · exact Or.inl h2
        · exact Or.inr (by simp [h2])

theorem commentsAtSecond_congr_mem (comments : List Comment)
    (s s1 : EngineState) (sec' : Int)
    (hoff : getTimeOffset s1 = getTimeOffset s)
    (hsh : ∀ x : Comment,
      x.content_offset_seconds + getTimeOffset s = (sec' : ℚ) →
      (x ∈ s1.shownMessages ↔ x ∈ s.shownMessages)) :
    commentsAtSecond comments s1 sec' = commentsAtSecond comments s sec' := by
  unfold commentsAtSecond
  apply List.filter_congr
  intro x _
  by_cases hx : x.content_offset_seconds + getTimeOffset s = (sec' : ℚ)
  · simp [hoff, hx, hsh x hx]
  · simp [hoff, hx]

theorem missedGo_truncates (fails : Comment → Bool) (comments : List Comment) :
    ∀ (secs : List Int) (s : EngineState) (feed : List Comment),
      s.messageList = some feed → secs.Nodup →
      (missedGo fails comments s secs).1.messageList =
        some (feed ++ (secs.flatMap
          (fun sec => commentsAtSecond comments s sec)).takeWhile
            (fun c => !fails c))
  | [], s, feed, hml, _ => by simpa [missedGo] using hml
  | sec :: rest, s, feed, hml, hnd => by
      have hrl := revealList_takeWhile fails (commentsAtSecond comments s sec)
        s feed hml
      unfold missedGo
      rw [List.flatMap_cons]
      by_cases hb : (revealList fails s (commentsAtSecond comments s sec)).2
          = true
      · have hex : ∃ c ∈ commentsAtSecond comments s sec, fails c = true :=
          (revealList_flag fails (commentsAtSecond comments s sec) s feed
            hml).mp hb
      
        have hstop : ((commentsAtSecond comments s sec) ++
            rest.flatMap (fun sec' => commentsAtSecond comments s sec')).takeWhile
              (fun c => !fails c) =
            (commentsAtSecond comments s sec).takeWhile (fun c => !fails c) := by
          apply takeWhile_append_stop
          obtain ⟨c, hc, hfc⟩ := hex
          exact ⟨c, hc, by simp [hfc]⟩
        rw [hstop]
        simp only [hb, if_true]
        exact hrl
      · have hall : ∀ c ∈ commentsAtSecond comments s sec, fails c = false := by
          intro c hc
          by_contra hcon
          exact hb ((revealList_flag fails (commentsAtSecond comments s sec)
            s feed hml).mpr ⟨c, hc, by revert hcon; cases fails c <;> simp⟩)
        have hallb : ∀ c ∈ commentsAtSecond comments s sec,
            (fun c => !fails c) c = true := by
          intro c hc
          simp [hall c hc]
        have hbatch : (commentsAtSecond comments s sec).takeWhile
            (fun c => !fails c) = commentsAtSecond comments s sec :=
          takeWhile_all _ _ hallb
        rw [hbatch] at hrl
        have hcongr : ∀ sec' ∈ rest,
            commentsAtSecond comments
              (revealList fails s (commentsAtSecond comments s sec)).1 sec' =
            commentsAtSecond comments s sec' := by
          intro sec' hmem
          have hne : sec' ≠ sec := by
            intro he
            exact (List.nodup_cons.mp hnd).1 (he ▸ hmem)
          apply commentsAtSecond_congr_mem
          · exact (revealList_sameCore fails
              (commentsAtSecond comments s sec) s).2.1
          · intro x hadj
            constructor
            · intro hx
              rcases revealList_shown_subset fails
                (commentsAtSecond comments s sec) s x hx with h1 | h1
              · exact h1
              · exfalso
                have := (mem_commentsAtSecond.mp h1).2.1
                rw [hadj] at this
                exact hne (by exact_mod_cast this)
            · exact revealList_shown_mono fails
                (commentsAtSecond comments s sec) s x
        have hih := missedGo_truncates fails comments rest
          (revealList fails s (commentsAtSecond comments s sec)).1
          (feed ++ commentsAtSecond comments s sec) hrl
          (List.nodup_cons.mp hnd).2
        have hfm : rest.flatMap (fun sec' => commentsAtSecond comments
              (revealList fails s (commentsAtSecond comments s sec)).1 sec') =
            rest.flatMap (fun sec' => commentsAtSecond comments s sec') := by
          unfold List.flatMap
          rw [List.map_congr_left hcongr]
        rw [hfm] at hih
        simp only [hb, Bool.false_eq_true, if_false]
        rw [hih]
        rw [takeWhile_append_all (fun c => !fails c) _ _ hallb]
        simp [List.append_assoc]

theorem showMissedMessages_truncates (fails : Comment → Bool)
    (s : EngineState) (l feed : List Comment) (lo hi : Int)
    (hcd : s.chatData = some l) (hml : s.messageList = some feed) :
    (showMissedMessages fails s lo hi).messageList =
      some (feed ++ ((secondsRange lo hi).flatMap
        (fun sec => commentsAtSecond l s sec)).takeWhile
          (fun c => !fails c)) := by
  unfold showMissedMessages
  rw [hcd]
  exact missedGo_truncates fails l (secondsRange lo hi) s feed hml
    (secondsRange_nodup lo hi)

theorem prevGo_truncates (fails : Comment → Bool) (comments : List Comment) :
    ∀ (idxs : List Nat) (s : EngineState) (feed : List Comment),
      s.messageList = some feed →
      ∃ R, (prevGo noFail comments s idxs).1.messageList =
          some (feed ++ R) ∧
        (prevGo fails comments s idxs).1.messageList =
          some (feed ++ R.takeWhile (fun c => !fails c))
  | [], s, feed, hml =>
      ⟨[], by simpa [prevGo] using hml, by simpa [prevGo] using hml⟩
  | i :: rest, s, feed, hml => by
      unfold prevGo
      rcases hc : comments[i]? with _ | c
      · exact prevGo_truncates fails comments rest s feed hml
      · by_cases hm : c ∈ s.shownMessages
        · simp only [if_pos hm]
          exact prevGo_truncates fails comments rest s feed hml
        · simp only [if_neg hm]
          by_cases hf : fails c = true
          · rw [showMessage_fail_spec fails s c feed hml hf,
              showMessage_nofail_spec s c feed hml]
            simp only [Bool.false_eq_true, if_false, if_true]
            obtain ⟨R, hR1, _⟩ := prevGo_truncates fails comments rest
              { s with shownMessages := addShown s.shownMessages c,
                       messageList := some (feed ++ [c]),
                       evLog := s.evLog ++ [TickEv.reveal c] }
              (feed ++ [c]) rfl
            refine ⟨c :: R, ?_, ?_⟩
            · rw [hR1]
              simp
            · simp [List.takeWhile_cons, hf, hml]
          · have hf' : fails c = false := by
              revert hf
              cases fails c <;> simp
            rw [showMessage_ok_spec fails s c feed hml hf',
              showMessage_nofail_spec s c feed hml]
            simp only [Bool.false_eq_true, if_false]
            obtain ⟨R, hR1, hR2⟩ := prevGo_truncates fails comments rest
              { s with shownMessages := addShown s.shownMessages c,
                       messageList := some (feed ++ [c]),
                       evLog := s.evLog ++ [TickEv.reveal c] }
              (feed ++ [c]) rfl
            refine ⟨c :: R, ?_, ?_⟩
            · rw [hR1]
              simp
            · rw [hR2]
              simp [List.takeWhile_cons, hf']

theorem showPreviousMessages_truncates (fails : Comment → Bool)
    (s : EngineState) (feed : List Comment) (second : Int)
    (hml : s.messageList = some feed) :
    ∃ R, (showPreviousMessages noFail s second).messageList =
        some (feed ++ R) ∧
      (showPreviousMessages fails s second).messageList =
        some (feed ++ R.takeWhile (fun c => !fails c)) := by
  unfold showPreviousMessages
  rcases hcd : s.chatData with _ | comments
  · exact ⟨[], by simpa using hml, by simpa using hml⟩
  · dsimp only
    rcases hfi : comments.reverse.findIdx? (fun c =>
        decide (c.content_offset_seconds + getTimeOffset s < (second : ℚ)))
      with _ | firstIdx
    · rw [hfi]
      exact ⟨[], by simpa using hml, by simpa using hml⟩
    · rw [hfi]
      exact prevGo_truncates fails comments _ s feed hml

/-- Claim C5 amended: when the Sink throws on one event of a transition's
backfill batch, the error is caught at the batch level and the whole
remainder of the batch is skipped, later seconds of a small jump included:
over any seconds range, the small-jump backfill appends to the feed
exactly the longest Sink-succeeding prefix of the full multi-second batch
(the per-second selections concatenated in order), and the large-jump
previous-messages backfill appends exactly the longest Sink-succeeding
prefix of what it would reveal with a never-throwing Sink.  The error
still never escalates: the tick always completes and updates lastSecond,
for every Sink behaviour. -/
theorem sink_error_truncates_batch :
    (∀ (fails : Comment → Bool) (s : EngineState) (l feed : List Comment)
      (lo hi : Int), s.chatData = some l → s.messageList = some feed →
      (showMissedMessages fails s lo hi).messageList =
        some (feed ++ ((secondsRange lo hi).flatMap
          (fun sec => commentsAtSecond l s sec)).takeWhile
            (fun c => !fails c))) ∧
    (∀ (fails : Comment → Bool) (s : EngineState) (feed : List Comment)
      (second : Int), s.messageList = some feed →
      ∃ R, (showPreviousMessages noFail s second).messageList =
          some (feed ++ R) ∧
        (showPreviousMessages fails s second).messageList =
          some (feed ++ R.takeWhile (fun c => !fails c))) ∧
    (∀ (fails : Comment → Bool) (s : EngineState) (ct now : ℚ) (cur : Int),
      s.videoInterval = true → s.videoPresent = true → cur = Rat.floor ct →
      cur ≠ s.lastSecond → (videoTick fails s ct false now).lastSecond = cur) :=
  ⟨fun fails s l feed lo hi hcd hml =>
      showMissedMessages_truncates fails s l feed lo hi hcd hml,
    fun fails s feed second hml =>
      showPreviousMessages_truncates fails s feed second hml,
    videoTick_lastSecond_updated⟩

/-- Claim C5 as stated is violated at a real transition: on the small jump
10 -> 13 over the log [cE1 at second 11, cE2 at second 12] with a Sink
that throws on cE1, the batch of the transition is [cE1, cE2]; the error
is caught, but cE2 - a remaining event of the same batch, in the next
second of the range - is never revealed: the feed stays empty, only cE1
(marked before the throw) enters the RevealedSet, nothing is scheduled,
and the tick still completes with lastSecond = 13. -/
theorem batch_abort_eval :
    (videoTick failsE sC5 13 false 0).messageList = some [] ∧
    (videoTick failsE sC5 13 false 0).shownMessages = [cE1] ∧
    cE2 ∉ (videoTick failsE sC5 13 false 0).shownMessages ∧
    (videoTick failsE sC5 13 false 0).pending = [] ∧
    (videoTick failsE sC5 13 false 0).lastSecond = 13 := by
  norm_num [videoTick, showMissedMessages, missedGo, revealList, showMessage,
    addShown, secondsRange, commentsAtSecond, showCurrentSecondMessages,
    getTimeOffset, cE1, cE2, failsE, sC5, Comment.mk.injEq, Rat.floor]

/-- Witness for the amended claim C5: the multi-second batch of the
10 -> 13 small jump under the throwing Sink, the previous-messages
truncation on the same session, and a concrete error-containing tick. -/
theorem sink_error_truncates_batch_witness :
    sC5.chatData = some [cE1, cE2] ∧ sC5.messageList = some [] ∧
    (showMissedMessages failsE sC5 11 13).messageList =
      some ([] ++ ((secondsRange 11 13).flatMap
        (fun sec => commentsAtSecond [cE1, cE2] sC5 sec)).takeWhile
          (fun c => !failsE c)) ∧
    (∃ R, (showPreviousMessages noFail sC5 13).messageList =
        some ([] ++ R) ∧
      (showPreviousMessages failsE sC5 13).messageList =
        some ([] ++ R.takeWhile (fun c => !failsE c))) ∧
    (13 : Int) ≠ sC5.lastSecond ∧
    (videoTick failsE sC5 (13 : ℚ) false 0).lastSecond = 13 := by
  refine ⟨rfl, rfl,
    sink_error_truncates_batch.1 failsE sC5 [cE1, cE2] [] 11 13 rfl rfl,
    sink_error_truncates_batch.2.1 failsE sC5 [] 13 rfl,
    by decide, ?_⟩
  exact sink_error_truncates_batch.2.2 failsE sC5 13 0 13 rfl rfl
    (by rw [ratFloor_eq_intFloor]; norm_num) (by decide)
